import Mathlib

set_option maxRecDepth 4000

/-!
Verification of the message-channel persistence layer of the Custos
moderation bot (src/main.py).

The development shallowly embeds the persistence code:

* message contents are `List Char`;
* Python `dict`s are insertion-ordered association lists with
  overwrite-in-place assignment (`dictInsert`), mirroring CPython;
* `json.loads` is modelled by an executable JSON parser over `List Char`
  (`jsonLoads`): objects, arrays, strings with the simple escapes (and
  Python's strict rejection of raw control characters inside strings),
  integers, floats (carried as their lexeme, never computed with),
  `Infinity`/`NaN`, booleans and null;
* `json.dumps`/`json.loads` round-tripping of a JSON *value* is a library
  guarantee, so the encoder `encodeState` produces the JSON value built by
  `save_database` (with `int` dict keys stringified exactly as `dumps`
  does) and the decoder works on JSON values, exactly as the per-entry
  parsing loops of `load_database` do;
* `list.sort(key=..)` / `sorted(.., reverse=True)` are modelled by stable
  insertion sorts (`pySortBy`, `pySortByDesc`) matching CPython's stable
  sort and its tie behaviour under `reverse=True`;
* Python `str.find`/`str.rfind`/`in`/`startswith`/`endswith`/`strip` and
  `int(..)` have direct executable models (`findSub`, `rfindSub`,
  `containsSub`, `pyStrip`, `pyInt`).
-/

/-! ## Python dictionaries as insertion-ordered association lists -/

/-- Lookup of the first binding of a key, as in a Python `dict`
(which holds at most one binding per key). -/
def dictLookup {κ ν : Type} [DecidableEq κ] (k : κ) : List (κ × ν) → Option ν
  | [] => none
  | e :: r => if e.1 = k then some e.2 else dictLookup k r

/-- Python `k in d`. -/
def dictContains {κ ν : Type} [DecidableEq κ] (k : κ) : List (κ × ν) → Bool
  | [] => false
  | e :: r => if e.1 = k then true else dictContains k r

/-- Python `d[k] = v`: overwrite in place if the key is present
(keeping its position, as CPython does), else append. -/
def dictInsert {κ ν : Type} [DecidableEq κ] (k : κ) (v : ν) : List (κ × ν) → List (κ × ν)
  | [] => [(k, v)]
  | e :: r => if e.1 = k then (k, v) :: r else e :: dictInsert k v r

/-- Python `del d[k]`. -/
def dictErase {κ ν : Type} [DecidableEq κ] (k : κ) : List (κ × ν) → List (κ × ν)
  | [] => []
  | e :: r => if e.1 = k then dictErase k r else e :: dictErase k r

/-- Building a Python `dict` from a key/value sequence: first-occurrence
order, last value wins (CPython semantics). -/
def pyDictOfList {κ ν : Type} [DecidableEq κ] (l : List (κ × ν)) : List (κ × ν) :=
  l.foldl (fun acc e => dictInsert e.1 e.2 acc) []

/-! ## Stable sorting (CPython `sort`) -/

/-- Insert into an ascending-sorted list after any equal keys
(the stable position for an element arriving later). -/
def insSortedBy {α : Type} (key : α → Nat) (x : α) : List α → List α
  | [] => [x]
  | y :: ys => if key y ≤ key x then y :: insSortedBy key x ys else x :: y :: ys

/-- Stable ascending sort by a `Nat` key: CPython `list.sort(key=..)`. -/
def pySortBy {α : Type} (key : α → Nat) (l : List α) : List α :=
  l.foldl (fun acc x => insSortedBy key x acc) []

/-- Insert into a descending-sorted list after any equal keys. -/
def insSortedByDesc {α : Type} (key : α → Nat) (x : α) : List α → List α
  | [] => [x]
  | y :: ys => if key x ≤ key y then y :: insSortedByDesc key x ys else x :: y :: ys

/-- Stable descending sort by a `Nat` key: CPython
`list.sort(key=.., reverse=True)` (ties keep original order). -/
def pySortByDesc {α : Type} (key : α → Nat) (l : List α) : List α :=
  l.foldl (fun acc x => insSortedByDesc key x acc) []

/-- Pair each element with its 1-based (more generally, `i`-based) index,
as `enumerate` does in the chunk loop of `save_database`. -/
def enumFrom {α : Type} (i : Nat) : List α → List (Nat × α)
  | [] => []
  | x :: xs => (i, x) :: enumFrom (i + 1) xs

/-! ## Strings as `List Char`: Python string primitives -/

/-- Message contents and document texts. -/
abbrev Content := List Char

/-- Python `s.find(pat)` (position of the first occurrence), with `-1`
rendered as `none`. -/
def findSub (pat : Content) : Content → Option Nat
  | [] => if pat = [] then some 0 else none
  | c :: r =>
    if pat.isPrefixOf (c :: r) then some 0
    else (findSub pat r).map (· + 1)

/-- Python `pat in s`. -/
def containsSub (pat : Content) (s : Content) : Bool :=
  (findSub pat s).isSome

/-- Forward scan keeping the last matching position. -/
def rfindAux (pat : Content) : Option Nat → Nat → Content → Option Nat
  | best, i, [] => if pat = [] then some i else best
  | best, i, c :: r =>
    rfindAux pat (if pat.isPrefixOf (c :: r) then some i else best) (i + 1) r

/-- Python `s.rfind(pat)` (position of the last occurrence), with `-1`
rendered as `none`. -/
def rfindSub (pat : Content) (s : Content) : Option Nat :=
  rfindAux pat none 0 s

/-- Whitespace stripped by Python `str.strip()` (the ASCII cases). -/
def pySpace (c : Char) : Bool :=
  c = ' ' || c = '\t' || c = '\n' || c = '\r' || c = '\x0b' || c = '\x0c'

/-- Python `s.strip()`. -/
def pyStrip (s : Content) : Content :=
  ((s.dropWhile pySpace).reverse.dropWhile pySpace).reverse

/-- Match a literal prefix, returning the rest. -/
def dropPrefixCL : Content → Content → Option Content
  | [], s => some s
  | _ :: _, [] => none
  | p :: ps, c :: cs => if p = c then dropPrefixCL ps cs else none

/-- ASCII decimal digit test. -/
def isDigit (c : Char) : Bool :=
  '0' ≤ c && c ≤ '9'

/-- Longest digit prefix and the rest (greedy `\d*`). -/
def spanDigits : Content → Content × Content
  | [] => ([], [])
  | c :: r =>
    if isDigit c then
      let p := spanDigits r
      (c :: p.1, p.2)
    else ([], c :: r)

/-- Numeric value of a digit character. -/
def dval (c : Char) : Nat := c.toNat - 48

/-- Value of a digit string, most significant first, on top of `a`. -/
def valD (a : Nat) (l : Content) : Nat :=
  l.foldl (fun x c => x * 10 + dval c) a

/-- Digit character for `k < 10`. -/
def digitChar (k : Nat) : Char := Char.ofNat (48 + k)

/-- Decimal digits of `n`, most significant first (fuelled). -/
def natToStrAux : Nat → Nat → Content
  | 0, _ => []
  | f + 1, n => if n < 10 then [digitChar n] else natToStrAux f (n / 10) ++ [digitChar (n % 10)]

/-- Python `str(n)` for a natural number. -/
def natToStr (n : Nat) : Content := natToStrAux (n + 1) n

/-- Python `str(i)` for an `int`, as `json.dumps` stringifies `int` dict keys. -/
def intToStr : Int → Content
  | Int.ofNat n => natToStr n
  | Int.negSucc m => '-' :: natToStr (m + 1)

/-- Digit string with optional single underscores between digits
(the accepting core of Python `int(..)` after sign handling). -/
def pduGo (a : Nat) : Content → Option Nat
  | [] => some a
  | c :: r =>
    if isDigit c then pduGo (a * 10 + dval c) r
    else if c = '_' then
      match r with
      | c2 :: r2 => if isDigit c2 then pduGo (a * 10 + dval c2) r2 else none
      | [] => none
    else none

/-- Nonempty digit string, underscores only between digits. -/
def parseDigitsU : Content → Option Nat
  | [] => none
  | c :: r => if isDigit c then pduGo (dval c) r else none

/-- Python `int(s)` on a string: strip whitespace, optional sign, decimal
digits with single underscores between digits; `none` models `ValueError`. -/
def pyInt (s : Content) : Option Int :=
  match pyStrip s with
  | [] => none
  | c :: r =>
    if c = '+' then (parseDigitsU r).map Int.ofNat
    else if c = '-' then (parseDigitsU r).map (fun n => -(n : Int))
    else (parseDigitsU (c :: r)).map Int.ofNat

/-! ## Chunking (`save_database`, the `chunks` list comprehension) -/

/-- Fuelled slicing. -/
def chunksFuel : Nat → Nat → Content → List Content
  | 0, _, _ => []
  | _, _, [] => []
  | f + 1, limit, doc => doc.take limit :: chunksFuel f limit (doc.drop limit)

/-- `[json_content[i:i+chunk_size] for i in range(0, len(json_content), chunk_size)]`. -/
def chunksOf (limit : Nat) (doc : Content) : List Content :=
  chunksFuel doc.length limit doc

/-! ## JSON values and a model of `json.loads` -/

/-- JSON values. Objects built by the parser are Python dicts
(`pyDictOfList`: first-occurrence order, last value wins). Integers are
carried as values (`num`); floats — which the persistence layer only
ever stores and re-serializes, never computes with (e.g. the
`metadata.save_timestamp` of every saved document) — are carried as
their source lexeme (`fnum`). -/
inductive Json where
  | null : Json
  | bool : Bool → Json
  | num : Int → Json
  | fnum : Content → Json
  | str : Content → Json
  | arr : List Json → Json
  | obj : List (Content × Json) → Json

/-- Opening brace. -/
def lbrace : Char := Char.ofNat 123

/-- Closing brace. -/
def rbrace : Char := Char.ofNat 125

/-- JSON inter-token whitespace (same set in Python `json`). -/
def jsonWs (c : Char) : Bool :=
  c = ' ' || c = '\t' || c = '\n' || c = '\r'

/-- Skip inter-token whitespace. -/
def skipWs (s : Content) : Content := s.dropWhile jsonWs

/-- String body after the opening quote, with the simple escapes;
returns the decoded body and the rest after the closing quote. As in
Python `json.loads` (strict mode, the default), an unescaped control
character (code point below 0x20) inside a string is rejected. -/
def parseStringBody : Nat → Content → Option (Content × Content)
  | 0, _ => none
  | _ + 1, [] => none
  | f + 1, c :: r =>
    if c = '"' then some ([], r)
    else if c = '\\' then
      match r with
      | [] => none
      | e :: r2 =>
        let esc : Option Char :=
          if e = '"' then some '"'
          else if e = '\\' then some '\\'
          else if e = '/' then some '/'
          else if e = 'n' then some '\n'
          else if e = 't' then some '\t'
          else if e = 'r' then some '\r'
          else if e = 'b' then some (Char.ofNat 8)
          else if e = 'f' then some (Char.ofNat 12)
          else none
        match esc with
        | some ch => (parseStringBody f r2).map (fun p => (ch :: p.1, p.2))
        | none => none
    else if c.toNat < 32 then none
    else (parseStringBody f r).map (fun p => (c :: p.1, p.2))

/-- The optional fraction of a JSON number: `'.'` followed by one or
more digits, or nothing. Returns the consumed lexeme and the rest. -/
def parseFracPart : Content → Option (Content × Content)
  | '.' :: r =>
    let q := spanDigits r
    if q.1 = [] then none else some ('.' :: q.1, q.2)
  | s => some ([], s)

/-- The optional exponent of a JSON number: `e`/`E`, an optional sign,
and one or more digits, or nothing. -/
def parseExpPart : Content → Option (Content × Content)
  | [] => some ([], [])
  | c :: r =>
    if c = 'e' ∨ c = 'E' then
      match r with
      | [] => none
      | sg :: r2 =>
        if sg = '+' ∨ sg = '-' then
          let q := spanDigits r2
          if q.1 = [] then none else some (c :: sg :: q.1, q.2)
        else
          let q := spanDigits (sg :: r2)
          if q.1 = [] then none else some (c :: q.1, q.2)
    else some ([], c :: r)

/-- A JSON number after the optional minus sign, per the grammar Python
`json` matches (`-?(0|[1-9]\d*)(\.\d+)?([eE][-+]?\d+)?`): an integer
when there is neither fraction nor exponent, otherwise a float carried
as its lexeme. -/
def parseNumBody (neg : Bool) (s : Content) : Option (Json × Content) :=
  let p := spanDigits s
  if p.1 = [] then none
  else if 1 < p.1.length ∧ p.1.headI = '0' then none
  else
    match parseFracPart p.2 with
    | none => none
    | some (fr, s2) =>
      match parseExpPart s2 with
      | none => none
      | some (ex, s3) =>
        if fr = [] ∧ ex = [] then
          some (Json.num (if neg then -(valD 0 p.1 : Int) else (valD 0 p.1 : Int)), s3)
        else
          some (Json.fnum ((if neg then ['-'] else []) ++ p.1 ++ fr ++ ex), s3)

/-- Numeric literal starting at `c :: r` (`c` is not whitespace):
optional minus then a JSON number; Python `json.loads` additionally
accepts `Infinity`, `-Infinity` and `NaN` by default. -/
def parseNumFrom (c : Char) (r : Content) : Option (Json × Content) :=
  if c = '-' then
    match r with
    | 'I' :: r2 =>
      (dropPrefixCL ['n', 'f', 'i', 'n', 'i', 't', 'y'] r2).map
        (fun r3 => (Json.fnum ['-', 'I', 'n', 'f', 'i', 'n', 'i', 't', 'y'], r3))
    | _ => parseNumBody true r
  else if isDigit c then parseNumBody false (c :: r)
  else none

mutual

/-- One JSON value, plus the unconsumed rest. -/
def parseVal : Nat → Content → Option (Json × Content)
  | 0, _ => none
  | f + 1, s =>
    match skipWs s with
    | [] => none
    | c :: r =>
      if c = '"' then (parseStringBody (r.length + 1) r).map (fun p => (Json.str p.1, p.2))
      else if c = lbrace then (parseObjItems f r).map (fun p => (Json.obj (pyDictOfList p.1), p.2))
      else if c = '[' then (parseArrItems f r).map (fun p => (Json.arr p.1, p.2))
      else if c = 't' then (dropPrefixCL ['r', 'u', 'e'] r).map (fun r2 => (Json.bool true, r2))
      else if c = 'f' then (dropPrefixCL ['a', 'l', 's', 'e'] r).map (fun r2 => (Json.bool false, r2))
      else if c = 'n' then (dropPrefixCL ['u', 'l', 'l'] r).map (fun r2 => (Json.null, r2))
      else if c = 'I' then
        (dropPrefixCL ['n', 'f', 'i', 'n', 'i', 't', 'y'] r).map
          (fun r2 => (Json.fnum ['I', 'n', 'f', 'i', 'n', 'i', 't', 'y'], r2))
      else if c = 'N' then
        (dropPrefixCL ['a', 'N'] r).map (fun r2 => (Json.fnum ['N', 'a', 'N'], r2))
      else parseNumFrom c r

/-- Object members after the opening brace. -/
def parseObjItems : Nat → Content → Option (List (Content × Json) × Content)
  | 0, _ => none
  | f + 1, s =>
    match skipWs s with
    | [] => none
    | c :: r =>
      if c = rbrace then some ([], r)
      else if c = '"' then
        match parseStringBody (r.length + 1) r with
        | none => none
        | some (k, r2) =>
          match skipWs r2 with
          | ':' :: r3 =>
            match parseVal f r3 with
            | none => none
            | some (v, r4) =>
              match skipWs r4 with
              | ',' :: r5 => (parseObjItems f r5).map (fun p => ((k, v) :: p.1, p.2))
              | c2 :: r5 => if c2 = rbrace then some ([(k, v)], r5) else none
              | [] => none
          | _ => none
      else none

/-- Array elements after the opening bracket. -/
def parseArrItems : Nat → Content → Option (List Json × Content)
  | 0, _ => none
  | f + 1, s =>
    match skipWs s with
    | [] => none
    | c :: r =>
      if c = ']' then some ([], r)
      else
        match parseVal f (c :: r) with
        | none => none
        | some (v, r2) =>
          match skipWs r2 with
          | ',' :: r3 => (parseArrItems f r3).map (fun p => (v :: p.1, p.2))
          | ']' :: r3 => some ([v], r3)
          | _ => none

end

/-- Model of `json.loads`: parse one value and require only whitespace
after it. -/
def jsonLoads (s : Content) : Option Json :=
  match parseVal (2 * s.length + 2) s with
  | some (v, rest) => if skipWs rest = [] then some v else none
  | none => none

/-! ## The persisted state (the module-level maps of main.py) -/

/-- The three module-level maps: `warnings` (server → user → list of
warning records), `punishments` (server → list of records),
`server_settings` (server → settings dict). Record leaves are raw JSON
values, exactly as `load_database` stores them. -/
structure DBState where
  warnings : List (Int × List (Int × List Json))
  punishments : List (Int × List Json)
  server_settings : List (Int × List (Content × Json))

/-- The empty database (`warnings = {}` etc.). -/
def emptyState : DBState := ⟨[], [], []⟩

/-- Key `"warnings"`. -/
def kWarnings : Content := ['w', 'a', 'r', 'n', 'i', 'n', 'g', 's']

/-- Key `"punishments"`. -/
def kPunishments : Content := ['p', 'u', 'n', 'i', 's', 'h', 'm', 'e', 'n', 't', 's']

/-- Key `"server_settings"`. -/
def kSettings : Content :=
  ['s', 'e', 'r', 'v', 'e', 'r', '_', 's', 'e', 't', 't', 'i', 'n', 'g', 's']

/-- Key `"metadata"`. -/
def kMetadata : Content := ['m', 'e', 't', 'a', 'd', 'a', 't', 'a']

/-- Python `data.get(k, {})` on a parsed JSON object. -/
def jget (j : Json) (k : Content) : Json :=
  match j with
  | Json.obj l => (dictLookup k l).getD (Json.obj [])
  | _ => Json.obj []

/-- `isinstance(data, dict) and "warnings" in data`. -/
def isObjWithWarnings : Json → Bool
  | Json.obj l => dictContains kWarnings l
  | _ => false

/-- Inner loop of the warnings decoder: build `warnings[sid]` from the
per-user JSON object (`int(user_id)` keys, `isinstance(.., list)` values;
malformed entries are skipped). -/
def decodeUsersVal : Json → List (Int × List Json)
  | Json.obj ul =>
    ul.foldl
      (fun uacc e =>
        match pyInt e.1 with
        | none => uacc
        | some uid =>
          match e.2 with
          | Json.arr ws => dictInsert uid ws uacc
          | _ => uacc)
      []
  | _ => []

/-- The `warnings` decoding loop of `load_database`: per-server
`int(server_id)`, `warnings[sid] = {}` first, then the per-user loop when
the value is a dict; unparseable keys are skipped. -/
def decodeWarnings : Json → List (Int × List (Int × List Json))
  | Json.obj l =>
    l.foldl
      (fun acc e =>
        match pyInt e.1 with
        | none => acc
        | some sid =>
          let acc1 := dictInsert sid [] acc
          match e.2 with
          | Json.obj ul => dictInsert sid (decodeUsersVal (Json.obj ul)) acc1
          | _ => acc1)
      []
  | _ => []

/-- The `punishments` decoding loop: `int(server_id)` keys, list values
only; malformed entries are skipped without a placeholder. -/
def decodePunishments : Json → List (Int × List Json)
  | Json.obj l =>
    l.foldl
      (fun acc e =>
        match pyInt e.1 with
        | none => acc
        | some sid =>
          match e.2 with
          | Json.arr pl => dictInsert sid pl acc
          | _ => acc)
      []
  | _ => []

/-- The `server_settings` decoding loop: `int(server_id)` keys, dict
values only. -/
def decodeSettings : Json → List (Int × List (Content × Json))
  | Json.obj l =>
    l.foldl
      (fun acc e =>
        match pyInt e.1 with
        | none => acc
        | some sid =>
          match e.2 with
          | Json.obj st => dictInsert sid st acc
          | _ => acc)
      []
  | _ => []

/-- The three per-entry decoding loops of `load_database`, applied to a
parsed document that passed `isinstance(data, dict) and "warnings" in
data` (identical in the single-message and multi-part branches). -/
def decodeFromData (data : Json) : DBState :=
  { warnings := decodeWarnings (jget data kWarnings)
    punishments := decodePunishments (jget data kPunishments)
    server_settings := decodeSettings (jget data kSettings) }

/-- Decode a document value: accept only a dict with a `"warnings"` key,
then run the per-entry loops. -/
def decodeData (data : Json) : Option DBState :=
  if isObjWithWarnings data then some (decodeFromData data) else none

/-- The JSON value of `database_data` built by `save_database`:
`json.dumps` stringifies the `int` dict keys with `str`, and the
`metadata` sub-object is passed in as an opaque value. -/
def encodeState (st : DBState) (meta : Json) : Json :=
  Json.obj
    [(kWarnings,
        Json.obj (st.warnings.map (fun e =>
          (intToStr e.1, Json.obj (e.2.map (fun u => (intToStr u.1, Json.arr u.2))))))),
     (kPunishments, Json.obj (st.punishments.map (fun e => (intToStr e.1, Json.arr e.2)))),
     (kSettings, Json.obj (st.server_settings.map (fun e => (intToStr e.1, Json.obj e.2)))),
     (kMetadata, meta)]

/-! ## Channel messages and the wire format -/

/-- A channel message as seen by the history scan: creation time,
whether the author is the bot itself, and the text content. -/
structure Msg where
  createdAt : Nat
  fromSelf : Bool
  content : Content

/-- `"```json"`. -/
def fenceJson : Content := ['`', '`', '`', 'j', 's', 'o', 'n']

/-- `"```"`. -/
def ticks3 : Content := ['`', '`', '`']

/-- `"Part"` (the containment test of the multi-part scan). -/
def litPart : Content := ['P', 'a', 'r', 't']

/-- `"Part "` (the literal head of the regex `Part (\d+)/(\d+)`). -/
def litPartSp : Content := ['P', 'a', 'r', 't', ' ']

/-- The chunk transport envelope
`f"**Part {i}/{n}:**\n```json\n{chunk}\n```"` posted by `save_database`
(with the 1-based index `i` and the chunk count `n`). -/
def mkPartMsg (i n : Nat) (c : Content) : Content :=
  '*' :: '*' :: (litPartSp ++ natToStr i ++ '/' :: natToStr n ++
    ':' :: '*' :: '*' :: '\n' :: (fenceJson ++ '\n' :: c ++ '\n' :: ticks3))

/-- The single-message envelope `f"```json\n{json_content}\n```"`. -/
def mkSingleMsg (doc : Content) : Content :=
  fenceJson ++ '\n' :: doc ++ '\n' :: ticks3

/-- `message.content.startswith("```json") and message.content.endswith("```")`. -/
def fenceOk (c : Content) : Bool :=
  fenceJson.isPrefixOf c && ticks3.isSuffixOf c

/-- Python `content[7:-3]`: drop the opening `"```json"` and the closing
`"```"` (empty when the content is shorter than 10 characters). -/
def sliceInner (c : Content) : Content :=
  (c.drop 7).take (c.length - 10)

/-- Try the regex `Part (\d+)/(\d+)` anchored at the current position:
literal `"Part "`, one or more digits, `'/'`, one or more digits (the
greedy `\d+` needs no backtracking because `'/'` is not a digit). -/
def tryPartHere (s : Content) : Option (Nat × Nat) :=
  match dropPrefixCL litPartSp s with
  | none => none
  | some r =>
    let p1 := spanDigits r
    if p1.1 = [] then none
    else
      match p1.2 with
      | '/' :: r2 =>
        let p2 := spanDigits r2
        if p2.1 = [] then none else some (valD 0 p1.1, valD 0 p2.1)
      | _ => none

/-- `re.search(r'Part (\d+)/(\d+)', content)`: leftmost match. -/
def findPartMarker : Content → Option (Nat × Nat)
  | [] => none
  | c :: r =>
    match tryPartHere (c :: r) with
    | some x => some x
    | none => findPartMarker r

/-- Python `content[a:b]` for `0 ≤ a ≤ b`. -/
def pySlice (a b : Nat) (c : Content) : Content :=
  (c.drop a).take (b - a)

/-- The multi-part body extraction of `load_database`:
`start = content.find("```json") + 7`, `end = content.rfind("```")`,
keep `content[start:end]` when `start > 6 and end > start` (`find` is
modelled as `Option`, so a hit always has `start > 6`). -/
def extractJson (c : Content) : Option Content :=
  match findSub fenceJson c, rfindSub ticks3 c with
  | some f, some r => if f + 7 < r then some (pySlice (f + 7) r c) else none
  | _, _ => none

/-! ## Reconstruction (`load_database`) -/

/-- One step of the multi-part collection loop: messages containing both
`"Part"` and `"```json"` whose content matches the part regex and whose
body extraction succeeds contribute `(part_num, json_content,
created_at)`; everything else contributes nothing.  The matched
`total_parts` is bound in the source and never used. -/
def collectStep (m : Msg) : List (Nat × Content × Nat) :=
  if containsSub litPart m.content && containsSub fenceJson m.content then
    match findPartMarker m.content with
    | some pt =>
      match extractJson m.content with
      | some body => [(pt.1, body, m.createdAt)]
      | none => []
    | none => []
  else []

/-- The `part_messages` list built by the multi-part scan. -/
def collectParts : List Msg → List (Nat × Content × Nat)
  | [] => []
  | m :: rest => collectStep m ++ collectParts rest

/-- `part_messages.sort(key=lambda x: x[0])` followed by
`"".join(content for _, content, _ in part_messages)`. -/
def combinedJson (ps : List (Nat × Content × Nat)) : Content :=
  ((pySortBy (fun x => x.1) ps).map (fun x => x.2.1)).flatten

/-- Phase 1 of `load_database`: walk the time-descending messages and
return the decoded state of the first self-contained fenced document
that parses to a dict with a `"warnings"` key; parse failures and
shape mismatches fall through to the next message. -/
def phase1 : List Msg → Option DBState
  | [] => none
  | m :: rest =>
    if m.content = [] then phase1 rest
    else if fenceOk m.content then
      if pyStrip (sliceInner m.content) = [] then phase1 rest
      else
        match jsonLoads (pyStrip (sliceInner m.content)) with
        | none => phase1 rest
        | some data =>
          if isObjWithWarnings data then some (decodeFromData data) else phase1 rest
    else phase1 rest

/-- Phase 2 of `load_database`: collect every part-tagged message, sort
all the collected parts by index (a stable sort — nothing groups them by
save attempt), join, parse, and accept only a dict with `"warnings"`. -/
def phase2 (msgs : List Msg) : Option DBState :=
  if collectParts msgs = [] then none
  else
    match jsonLoads (combinedJson (collectParts msgs)) with
    | some data => if isObjWithWarnings data then some (decodeFromData data) else none
    | none => none

/-- The reconstruction core of `load_database`, applied to the
author-filtered, time-descending message list: phase 1, then phase 2,
then the empty database. -/
def loadFromHistory (msgs : List Msg) : DBState :=
  match phase1 msgs with
  | some st => st
  | none =>
    match phase2 msgs with
    | some st => st
    | none => emptyState

/-- The scan order of `load_database`: keep the bot's own messages and
sort by creation time, newest first (`sort(key=.., reverse=True)`). -/
def scanOrder (history : List Msg) : List Msg :=
  pySortByDesc (fun m => m.createdAt) (history.filter (fun m => m.fromSelf))

/-- `load_database`: the previous in-memory state `pre` is discarded
unconditionally (the three maps are reset to `{}` up front and on every
failure path); a missing channel yields the empty state. -/
def load_database (pre : DBState) (channel : Option (List Msg)) : DBState :=
  match pre, channel with
  | _, none => emptyState
  | _, some history => loadFromHistory (scanOrder history)

/-! ## Saving (`save_database`) -/

/-- A message posted by `save_database`: either the embed-only backup
header (whose `content` is empty) or a text message. -/
inductive Sent where
  | embedOnly : Sent
  | withContent : Content → Sent

/-- The chunk messages of one save: chunks of 1900 characters of the
serialized document, each wrapped in the part envelope, in index order. -/
def partContents (limit : Nat) (doc : Content) : List Content :=
  (enumFrom 1 (chunksOf limit doc)).map
    (fun p => mkPartMsg p.1 (chunksOf limit doc).length p.2)

/-- The messages posted by one successful `save_database` call for the
serialized document `doc`: over 1900 characters, a header embed followed
by one message per chunk (posted in index order with a short delay);
otherwise a single fenced message (with the embed attached to it). -/
def save_database_msgs (doc : Content) : List Sent :=
  if 1900 < doc.length then
    Sent.embedOnly :: (partContents 1900 doc).map Sent.withContent
  else [Sent.withContent (mkSingleMsg doc)]

/-- Channel effect of a successful save: the new messages are appended
to the history; nothing is deleted or edited. -/
def apply_save (hist : List Sent) (doc : Content) : List Sent :=
  hist ++ save_database_msgs doc

/-! ## The debounced saver (`batch_save_database`) -/

/-- The state touched by `batch_save_database`: the
`pending_database_save` flag, `last_database_save`, and a count of
completed `save_database` calls (channel writes). -/
structure SaverState where
  pending : Bool
  lastSave : Nat
  writes : Nat

/-- A call to `batch_save_database` at time `t`: if a save is already
pending it returns immediately; otherwise it sets the flag and sleeps
for 5 seconds — modelled as scheduling a wake-up at `t + 5`. -/
def batchSaveCall (s : SaverState) (t : Nat) : SaverState × List Nat :=
  if s.pending then (s, [])
  else ({ s with pending := true }, [t + 5])

/-- The continuation after the sleep, at time `t`: write only if at
least 30 seconds passed since the last completed save, then clear the
pending flag. -/
def batchSaveWake (s : SaverState) (t : Nat) : SaverState :=
  let s1 := if s.lastSave + 30 ≤ t then { s with writes := s.writes + 1, lastSave := t } else s
  { s1 with pending := false }


/-- Processing one arriving call: step the saver state and append the
wake-up it scheduled, if any. -/
def saveCallStep (acc : SaverState × List Nat) (t : Nat) : SaverState × List Nat :=
  ((batchSaveCall acc.1 t).1, acc.2 ++ (batchSaveCall acc.1 t).2)

/-- A burst of calls inside one debounce window: all the calls run
before any scheduled wake-up fires (they all happen within 5 seconds of
the first), then the scheduled wake-ups run. -/
def runBurst (s : SaverState) (ts : List Nat) : SaverState :=
  (ts.foldl saveCallStep (s, [])).2.foldl batchSaveWake (ts.foldl saveCallStep (s, [])).1

/-! ## State-store operations (`get_user_warnings`, `/clearwarnings`) -/

/-- `get_user_warnings`: create `warnings[server_id]` and
`warnings[server_id][user_id]` on first access, then return the list.
Returns the list together with the updated state. -/
def get_user_warnings (st : DBState) (sid uid : Int) : List Json × DBState :=
  let w1 := if dictContains sid st.warnings then st.warnings
            else dictInsert sid [] st.warnings
  let inner := (dictLookup sid w1).getD []
  let inner1 := if dictContains uid inner then inner else dictInsert uid [] inner
  ((dictLookup uid inner1).getD [], { st with warnings := dictInsert sid inner1 w1 })

/-- The state mutation of `/clearwarnings`:
`if gid in warnings and uid in warnings[gid]: del warnings[gid][uid]`. -/
def clear_warnings (st : DBState) (sid uid : Int) : DBState :=
  if dictContains sid st.warnings && dictContains uid ((dictLookup sid st.warnings).getD [])
  then { st with
          warnings := dictInsert sid (dictErase uid ((dictLookup sid st.warnings).getD []))
            st.warnings }
  else st

/-! ## Auxiliary definitions used by the verification -/

/-- The shape shared by all four decoding loops: parse the key, skip the
entry or overwrite-insert the decoded value. -/
def pfStep {α : Type} (pf : Content × Json → Option (Int × α))
    (acc : List (Int × α)) (e : Content × Json) : List (Int × α) :=
  match pf e with
  | none => acc
  | some iv => dictInsert iv.1 iv.2 acc

/-- The decision the user-level warnings loop makes for one entry. -/
def pfUsers (e : Content × Json) : Option (Int × List Json) :=
  (pyInt e.1).bind (fun uid => match e.2 with | Json.arr ws => some (uid, ws) | _ => none)

/-- The decision the server-level warnings loop makes for one entry. -/
def pfWarnings (e : Content × Json) : Option (Int × List (Int × List Json)) :=
  (pyInt e.1).map (fun sid => (sid, decodeUsersVal e.2))

/-- The decision the punishments loop makes for one entry. -/
def pfPunishments (e : Content × Json) : Option (Int × List Json) :=
  (pyInt e.1).bind (fun sid => match e.2 with | Json.arr pl => some (sid, pl) | _ => none)

/-- The decision the settings loop makes for one entry. -/
def pfSettings (e : Content × Json) : Option (Int × List (Content × Json)) :=
  (pyInt e.1).bind (fun sid => match e.2 with | Json.obj st => some (sid, st) | _ => none)

/-- Schema constraints under which a state can round-trip: each of the
four Python dicts has (as every real dict does) pairwise distinct keys. -/
def wfState (st : DBState) : Prop :=
  (st.warnings.map Prod.fst).Nodup ∧ (∀ e ∈ st.warnings, (e.2.map Prod.fst).Nodup) ∧
    (st.punishments.map Prod.fst).Nodup ∧ (st.server_settings.map Prod.fst).Nodup

/-- The text before the opening fence in a part message:
`f"**Part {i}/{n}:**\n"`. -/
def partHeader (i n : Nat) : Content :=
  '*' :: '*' :: (litPartSp ++ natToStr i ++ '/' :: natToStr n ++ [':', '*', '*', '\n'])

/-- What the multi-part reassembly actually concatenates for the parts of
one chunked save of `doc`: each chunk padded by the `'\n'` on each side of
it inside its envelope. -/
def nlJoin (chunks : List Content) : Content :=
  (chunks.map (fun c => '\n' :: c ++ ['\n'])).flatten

/-- The part messages of one chunked save, as channel messages (all
self-authored; creation times are irrelevant to the reassembly and set
to 0), in posting (index) order. -/
def partMsgs (limit : Nat) (doc : Content) : List Msg :=
  (partContents limit doc).map (fun c => ⟨0, true, c⟩)


/-! ## Concrete data for witnesses and counterexamples -/

/-- A state with one warning for member 42 of community 1. -/
def st0C7 : DBState := ⟨[(1, [(42, [Json.str ['r']])])], [], []⟩

/-- A 1901-character serialized document (just over the 1900 limit). -/
def docC1 : Content := List.replicate 1901 'a'

/-- A small document for the amended chunk-invariance witness. -/
def wdocC1 : Content := ['a', 'b', 'c', 'd', 'e']

/-- A 4500-character serialized document (3 chunks of 1900). -/
def docC8 : Content := List.replicate 4500 'a'

/-- First chunk of save attempt A (newer): half of a valid document. -/
def c2a1 : Content := "\x7b\"warnings\": \x7b\"1\": \x7b\"7\": []\x7d\x7d,".toList

/-- Second chunk of save attempt A. -/
def c2a2 : Content := " \"punishments\": \x7b\x7d, \"server_settings\": \x7b\x7d\x7d".toList

/-- First chunk of save attempt B (older). -/
def c2b1 : Content := "\x7b\"warnings\": \x7b\"2\": \x7b\"9\": []\x7d\x7d,".toList

/-- Second chunk of save attempt B. -/
def c2b2 : Content := " \"punishments\": \x7b\x7d, \"server_settings\": \x7b\x7d\x7d".toList

/-- A channel history holding the part messages of two complete save
attempts: attempt A (parts at times 11 and 12) entirely newer than
attempt B (times 1 and 2), listed in scrambled arrival order. -/
def c2hist : List Msg :=
  [⟨11, true, mkPartMsg 1 2 c2a1⟩, ⟨2, true, mkPartMsg 2 2 c2b2⟩,
   ⟨12, true, mkPartMsg 2 2 c2a2⟩, ⟨1, true, mkPartMsg 1 2 c2b1⟩]

/-- The most recent complete group in `c2hist`: the two messages of
attempt A, in scan (time-descending) order. -/
def c2groupA : List Msg :=
  [⟨12, true, mkPartMsg 2 2 c2a2⟩, ⟨11, true, mkPartMsg 1 2 c2a1⟩]

/-- The state obtained by joining and decoding exactly the group A
parts (what the claimed selection would produce). -/
def c2stA : DBState := (phase2 c2groupA).getD emptyState

/-- A fenced document that is valid JSON but has no `"warnings"` key. -/
def docNoW : Content := "\x7b\"answer\": 42\x7d".toList

/-- Its parsed value. -/
def vNoW : Json := (jsonLoads (pyStrip (sliceInner (mkSingleMsg docNoW)))).getD Json.null

/-- A well-formed state exercising all three maps. -/
def stW : DBState :=
  ⟨[(1, [(42, [Json.str ['r']]), (7, [])]), (2, [])],
   [(1, [Json.num 3])],
   [(1, [("log_channel_id".toList, Json.num 99)])]⟩

/-- Warnings entries with one malformed key and one well-formed entry. -/
def c6lw : List (Content × Json) :=
  [(['x'], Json.obj []), (['2'], Json.obj [(['9'], Json.arr [])]), (['3'], Json.num 0)]

/-- Punishments entries with a non-list value to be dropped. -/
def c6lp : List (Content × Json) := [(['1'], Json.arr []), (['2'], Json.num 5)]

/-- Settings entries with an unparseable key to be dropped. -/
def c6ls : List (Content × Json) := [([' ', '4'], Json.obj []), (['y'], Json.obj [])]

/-! ## Lemmas: decimal digits and `int(str(n))` -/

theorem digitChar_facts : ∀ k, k < 10 →
    isDigit (digitChar k) = true ∧ dval (digitChar k) = k ∧ pySpace (digitChar k) = false ∧
      digitChar k ≠ '`' ∧ digitChar k ≠ '+' ∧ digitChar k ≠ '-' := by
  decide

theorem valD_append (a : Nat) (xs ys : Content) :
    valD a (xs ++ ys) = valD (valD a xs) ys := by
  simp [valD, List.foldl_append]

theorem natToStrAux_spec (n : Nat) : ∀ f, n < f →
    natToStrAux f n ≠ [] ∧ (∀ c ∈ natToStrAux f n, isDigit c = true) ∧
      ∀ a, valD a (natToStrAux f n) = a * 10 ^ (natToStrAux f n).length + n := by
  induction n using Nat.strong_induction_on with
  | _ n ih =>
    intro f hf
    match f with
    | f + 1 =>
      by_cases h10 : n < 10
      · refine ⟨by simp [natToStrAux, h10], ?_, ?_⟩
        · intro c hc
          simp [natToStrAux, h10] at hc
          subst hc
          exact (digitChar_facts n h10).1
        · intro a
          simp [natToStrAux, h10, valD, (digitChar_facts n h10).2.1]
      · have hn0 : 0 < n := by omega
        have hdiv : n / 10 < n := Nat.div_lt_self hn0 (by omega)
        have hdivf : n / 10 < f := by omega
        obtain ⟨hne, hdig, hval⟩ := ih (n / 10) hdiv f hdivf
        have hmod : n % 10 < 10 := Nat.mod_lt _ (by omega)
        have heq : natToStrAux (f + 1) n =
            natToStrAux f (n / 10) ++ [digitChar (n % 10)] := by
          simp [natToStrAux, h10]
        refine ⟨by simp [heq], ?_, ?_⟩
        · intro c hc
          rw [heq] at hc
          rcases List.mem_append.mp hc with h | h
          · exact hdig c h
          · simp at h
            subst h
            exact (digitChar_facts _ hmod).1
        · intro a
          rw [heq, valD_append, hval a]
          simp [valD, (digitChar_facts _ hmod).2.1, List.length_append, pow_succ]
          have := Nat.div_add_mod n 10
          ring_nf
          omega

theorem natToStr_spec (n : Nat) :
    natToStr n ≠ [] ∧ (∀ c ∈ natToStr n, isDigit c = true) ∧ valD 0 (natToStr n) = n := by
  obtain ⟨h1, h2, h3⟩ := natToStrAux_spec n (n + 1) (Nat.lt_succ_self n)
  exact ⟨h1, h2, by simpa using h3 0⟩

theorem pduGo_digits (l : Content) (h : ∀ c ∈ l, isDigit c = true) :
    ∀ a, pduGo a l = some (valD a l) := by
  induction l with
  | nil => intro a; simp [pduGo, valD]
  | cons c r ihr =>
    intro a
    have hc : isDigit c = true := h c (List.mem_cons_self c r)
    have hstep : pduGo a (c :: r) = pduGo (a * 10 + dval c) r := by
      rw [pduGo.eq_def]
      simp [hc]
    rw [hstep, ihr (fun x hx => h x (List.mem_cons_of_mem c hx))]
    simp [valD]

theorem parseDigitsU_natToStr (n : Nat) : parseDigitsU (natToStr n) = some n := by
  obtain ⟨h1, h2, h3⟩ := natToStr_spec n
  obtain ⟨c, r, hcr⟩ := List.exists_cons_of_ne_nil h1
  have hc : isDigit c = true := h2 c (by rw [hcr]; exact List.mem_cons_self c r)
  rw [hcr, parseDigitsU, if_pos hc,
    pduGo_digits r (fun x hx => h2 x (by rw [hcr]; exact List.mem_cons_of_mem c hx))]
  rw [hcr] at h3
  simp [valD] at h3 ⊢
  exact h3

theorem pySpace_of_isDigit (c : Char) (h : isDigit c = true) : pySpace c = false := by
  by_contra hp
  have hp2 : pySpace c = true := by
    cases hb : pySpace c
    · exact absurd hb hp
    · rfl
  simp only [pySpace, Bool.or_eq_true, decide_eq_true_eq] at hp2
  rcases hp2 with ((((h1 | h1) | h1) | h1) | h1) | h1 <;> subst h1 <;> simp [isDigit] at h

theorem dropWhile_pySpace_eq_self (l : Content) (h : ∀ c ∈ l, pySpace c = false) :
    l.dropWhile pySpace = l := by
  cases l with
  | nil => rfl
  | cons c r => simp [List.dropWhile, h c (List.mem_cons_self c r)]

theorem pyStrip_eq_self (l : Content) (h : ∀ c ∈ l, pySpace c = false) : pyStrip l = l := by
  rw [pyStrip, dropWhile_pySpace_eq_self l h,
    dropWhile_pySpace_eq_self l.reverse (fun c hc => h c (List.mem_reverse.mp hc)),
    List.reverse_reverse]

theorem ne_sign_of_isDigit (c : Char) (h : isDigit c = true) : c ≠ '+' ∧ c ≠ '-' := by
  constructor <;> rintro rfl <;> simp [isDigit] at h

theorem pyInt_intToStr (i : Int) : pyInt (intToStr i) = some i := by
  cases i with
  | ofNat n =>
    obtain ⟨h1, h2, _⟩ := natToStr_spec n
    have hs : pyStrip (natToStr n) = natToStr n :=
      pyStrip_eq_self _ (fun c hc => pySpace_of_isDigit c (h2 c hc))
    obtain ⟨c, r, hcr⟩ := List.exists_cons_of_ne_nil h1
    have hc : isDigit c = true := h2 c (by rw [hcr]; exact List.mem_cons_self c r)
    obtain ⟨hne1, hne2⟩ := ne_sign_of_isDigit c hc
    have hparse : parseDigitsU (c :: r) = some n := by
      rw [← hcr]; exact parseDigitsU_natToStr n
    rw [intToStr, pyInt, hs, hcr]
    simp [hne1, hne2, hparse]
  | negSucc m =>
    obtain ⟨h1, h2, _⟩ := natToStr_spec (m + 1)
    have hall : ∀ c ∈ '-' :: natToStr (m + 1), pySpace c = false := by
      intro c hc
      rcases List.mem_cons.mp hc with rfl | hc
      · decide
      · exact pySpace_of_isDigit c (h2 c hc)
    rw [intToStr, pyInt, pyStrip_eq_self _ hall]
    simp [parseDigitsU_natToStr (m + 1), Int.negSucc_eq]

/-! ## Lemmas: association-list dictionaries -/

theorem dictLookup_insert_self {κ ν : Type} [DecidableEq κ] (k : κ) (v : ν)
    (l : List (κ × ν)) : dictLookup k (dictInsert k v l) = some v := by
  induction l with
  | nil => simp [dictInsert, dictLookup]
  | cons e r ih =>
    by_cases he : e.1 = k
    · simp [dictInsert, he, dictLookup]
    · simp [dictInsert, he, dictLookup, ih]

theorem dictContains_append {κ ν : Type} [DecidableEq κ] (k : κ) (l1 l2 : List (κ × ν)) :
    dictContains k (l1 ++ l2) = (dictContains k l1 || dictContains k l2) := by
  induction l1 with
  | nil => simp [dictContains]
  | cons e r ih =>
    by_cases he : e.1 = k
    · simp [dictContains, he]
    · simp [dictContains, he, ih]

theorem dictInsert_of_not_contains {κ ν : Type} [DecidableEq κ] (k : κ) (v : ν)
    (l : List (κ × ν)) (h : dictContains k l = false) : dictInsert k v l = l ++ [(k, v)] := by
  induction l with
  | nil => simp [dictInsert]
  | cons e r ih =>
    rw [dictContains] at h
    by_cases he : e.1 = k
    · simp [he] at h
    · rw [dictInsert, if_neg he, ih (by simpa [he] using h)]
      simp

theorem dictInsert_dictInsert {κ ν : Type} [DecidableEq κ] (k : κ) (v1 v2 : ν)
    (l : List (κ × ν)) : dictInsert k v2 (dictInsert k v1 l) = dictInsert k v2 l := by
  induction l with
  | nil => simp [dictInsert]
  | cons e r ih =>
    by_cases he : e.1 = k
    · simp [dictInsert, he]
    · simp [dictInsert, he, ih]

theorem dictContains_erase_self {κ ν : Type} [DecidableEq κ] (k : κ) (l : List (κ × ν)) :
    dictContains k (dictErase k l) = false := by
  induction l with
  | nil => rfl
  | cons e r ih =>
    by_cases he : e.1 = k
    · simp [dictErase, he, ih]
    · simp [dictErase, he, dictContains, ih]

theorem dictContains_eq_isSome_lookup {κ ν : Type} [DecidableEq κ] (k : κ)
    (l : List (κ × ν)) : dictContains k l = (dictLookup k l).isSome := by
  induction l with
  | nil => rfl
  | cons e r ih =>
    by_cases he : e.1 = k
    · simp [dictContains, dictLookup, he]
    · simp [dictContains, dictLookup, he, ih]

/-! ## Lemmas: stable sorting -/

theorem insSortedBy_append {α : Type} (key : α → Nat) (x : α) (acc : List α)
    (h : ∀ y ∈ acc, key y ≤ key x) : insSortedBy key x acc = acc ++ [x] := by
  induction acc with
  | nil => rfl
  | cons y ys ih =>
    rw [insSortedBy, if_pos (h y (List.mem_cons_self y ys)),
      ih (fun z hz => h z (List.mem_cons_of_mem y hz))]
    simp

theorem insSortedBy_head {α : Type} (key : α → Nat) (x : α) (acc : List α)
    (h : ∀ y ∈ acc, key x < key y) : insSortedBy key x acc = x :: acc := by
  cases acc with
  | nil => rfl
  | cons y ys =>
    rw [insSortedBy, if_neg]
    exact Nat.not_le.mpr (h y (List.mem_cons_self y ys))

theorem pySortBy_foldl_sorted {α : Type} (key : α → Nat) :
    ∀ (l acc : List α), (∀ a ∈ acc, ∀ b ∈ l, key a ≤ key b) →
      l.Pairwise (fun a b => key a ≤ key b) →
      l.foldl (fun acc x => insSortedBy key x acc) acc = acc ++ l := by
  intro l
  induction l with
  | nil => intro acc _ _; simp
  | cons x xs ih =>
    intro acc hacc hpw
    rw [List.foldl_cons,
      insSortedBy_append key x acc (fun y hy => hacc y hy x (List.mem_cons_self x xs)),
      ih (acc ++ [x]) ?_ (List.Pairwise.of_cons hpw)]
    · simp
    · intro a ha b hb
      rcases List.mem_append.mp ha with h1 | h1
      · exact hacc a h1 b (List.mem_cons_of_mem x hb)
      · simp at h1
        subst h1
        exact (List.pairwise_cons.mp hpw).1 b hb

theorem pySortBy_of_sorted {α : Type} (key : α → Nat) (l : List α)
    (h : l.Pairwise (fun a b => key a ≤ key b)) : pySortBy key l = l := by
  simpa using pySortBy_foldl_sorted key l [] (by simp) h

theorem pySortBy_foldl_rev {α : Type} (key : α → Nat) :
    ∀ (l acc : List α), (∀ b ∈ l, ∀ a ∈ acc, key b < key a) →
      l.Pairwise (fun a b => key b < key a) →
      l.foldl (fun acc x => insSortedBy key x acc) acc = l.reverse ++ acc := by
  intro l
  induction l with
  | nil => intro acc _ _; simp
  | cons x xs ih =>
    intro acc hacc hpw
    rw [List.foldl_cons,
      insSortedBy_head key x acc (hacc x (List.mem_cons_self x xs)),
      ih (x :: acc) ?_ (List.Pairwise.of_cons hpw)]
    · simp
    · intro b hb a ha
      rcases List.mem_cons.mp ha with rfl | h1
      · exact (List.pairwise_cons.mp hpw).1 b hb
      · exact hacc b (List.mem_cons_of_mem x hb) a h1

theorem pySortBy_of_rev_sorted {α : Type} (key : α → Nat) (l : List α)
    (h : l.Pairwise (fun a b => key b < key a)) : pySortBy key l = l.reverse := by
  simpa using pySortBy_foldl_rev key l [] (by simp) h

/-! ## Lemmas: the per-entry decoding loops -/


theorem pfStep_none {α : Type} (pf : Content × Json → Option (Int × α))
    (acc : List (Int × α)) (e : Content × Json) (hpf : pf e = none) :
    pfStep pf acc e = acc := by
  rw [pfStep, hpf]

theorem pfStep_some {α : Type} (pf : Content × Json → Option (Int × α))
    (acc : List (Int × α)) (e : Content × Json) (iv : Int × α) (hpf : pf e = some iv) :
    pfStep pf acc e = dictInsert iv.1 iv.2 acc := by
  rw [pfStep, hpf]

theorem dictContains_nil {κ ν : Type} [DecidableEq κ] (k : κ) :
    dictContains k ([] : List (κ × ν)) = false := rfl

theorem foldl_pfStep_eq_filterMap {α : Type} (pf : Content × Json → Option (Int × α)) :
    ∀ (l : List (Content × Json)) (acc : List (Int × α)),
      (∀ e ∈ l, ∀ iv, pf e = some iv → dictContains iv.1 acc = false) →
      (l.filterMap (fun e => (pf e).map Prod.fst)).Nodup →
      l.foldl (pfStep pf) acc = acc ++ l.filterMap pf := by
  intro l
  induction l with
  | nil => intro acc _ _; simp
  | cons e l' ih =>
    intro acc hfresh hnd
    cases hpf : pf e with
    | none =>
      rw [List.foldl_cons, pfStep_none pf acc e hpf,
        ih acc (fun e' he' => hfresh e' (List.mem_cons_of_mem e he'))
          (by simpa [List.filterMap_cons, hpf] using hnd),
        List.filterMap_cons_none hpf]
    | some iv =>
      rw [List.foldl_cons, pfStep_some pf acc e iv hpf,
        dictInsert_of_not_contains iv.1 iv.2 acc (hfresh e (List.mem_cons_self e l') iv hpf)]
      have hmap : (fun e => (pf e).map Prod.fst) e = some iv.1 := by
        show (pf e).map Prod.fst = some iv.1
        rw [hpf]
        rfl
      have hnd' : (iv.1 :: l'.filterMap (fun e => (pf e).map Prod.fst)).Nodup := by
        rw [@List.filterMap_cons_some _ _ (fun e => (pf e).map Prod.fst) e l' iv.1 hmap] at hnd
        exact hnd
      have hnotin : iv.1 ∉ l'.filterMap (fun e => (pf e).map Prod.fst) :=
        (List.nodup_cons.mp hnd').1
      rw [ih (acc ++ [iv]) ?_ (List.nodup_cons.mp hnd').2, List.filterMap_cons_some hpf]
      · simp
      · intro e' he' iv' hpf'
        rw [dictContains_append, hfresh e' (List.mem_cons_of_mem e he') iv' hpf',
          Bool.false_or]
        have hne : iv'.1 ≠ iv.1 := by
          intro hk
          exact hnotin (by
            rw [← hk]
            exact List.mem_filterMap.mpr ⟨e', he', by rw [hpf']; rfl⟩)
        have hne2 : iv.1 ≠ iv'.1 := fun hh => hne hh.symm
        simp [dictContains, hne2]


theorem decodeUsersVal_obj (ul : List (Content × Json))
    (hnd : (ul.filterMap (fun e => (pfUsers e).map Prod.fst)).Nodup) :
    decodeUsersVal (Json.obj ul) = ul.filterMap pfUsers := by
  rw [decodeUsersVal]
  rw [List.foldl_ext (g := pfStep pfUsers)]
  · rw [foldl_pfStep_eq_filterMap pfUsers ul []
      (fun e he iv hiv => dictContains_nil iv.1) hnd]
    rfl
  · intro acc e _
    cases hpi : pyInt e.1 with
    | none =>
      have h1 : pfUsers e = none := by rw [pfUsers, hpi]; rfl
      rw [pfStep_none pfUsers acc e h1]
    | some uid =>
      cases hv : e.2
      case arr ws =>
        have h1 : pfUsers e = some (uid, ws) := by rw [pfUsers, hpi, hv]; rfl
        rw [pfStep_some pfUsers acc e (uid, ws) h1]
      all_goals
        have h1 : pfUsers e = none := by rw [pfUsers, hpi, hv]; rfl
        rw [pfStep_none pfUsers acc e h1]

theorem decodeWarnings_obj (l : List (Content × Json))
    (hnd : (l.filterMap (fun e => (pfWarnings e).map Prod.fst)).Nodup) :
    decodeWarnings (Json.obj l) = l.filterMap pfWarnings := by
  rw [decodeWarnings]
  rw [List.foldl_ext (g := pfStep pfWarnings)]
  · rw [foldl_pfStep_eq_filterMap pfWarnings l []
      (fun e he iv hiv => dictContains_nil iv.1) hnd]
    rfl
  · intro acc e _
    cases hpi : pyInt e.1 with
    | none =>
      have h1 : pfWarnings e = none := by rw [pfWarnings, hpi]; rfl
      rw [pfStep_none pfWarnings acc e h1]
    | some sid =>
      have h1 : pfWarnings e = some (sid, decodeUsersVal e.2) := by
        rw [pfWarnings, hpi]
        rfl
      rw [pfStep_some pfWarnings acc e (sid, decodeUsersVal e.2) h1]
      cases hv : e.2 <;> simp [decodeUsersVal, dictInsert_dictInsert]

theorem decodePunishments_obj (l : List (Content × Json))
    (hnd : (l.filterMap (fun e => (pfPunishments e).map Prod.fst)).Nodup) :
    decodePunishments (Json.obj l) = l.filterMap pfPunishments := by
  rw [decodePunishments]
  rw [List.foldl_ext (g := pfStep pfPunishments)]
  · rw [foldl_pfStep_eq_filterMap pfPunishments l []
      (fun e he iv hiv => dictContains_nil iv.1) hnd]
    rfl
  · intro acc e _
    cases hpi : pyInt e.1 with
    | none =>
      have h1 : pfPunishments e = none := by rw [pfPunishments, hpi]; rfl
      rw [pfStep_none pfPunishments acc e h1]
    | some sid =>
      cases hv : e.2
      case arr pl =>
        have h1 : pfPunishments e = some (sid, pl) := by rw [pfPunishments, hpi, hv]; rfl
        rw [pfStep_some pfPunishments acc e (sid, pl) h1]
      all_goals
        have h1 : pfPunishments e = none := by rw [pfPunishments, hpi, hv]; rfl
        rw [pfStep_none pfPunishments acc e h1]

theorem decodeSettings_obj (l : List (Content × Json))
    (hnd : (l.filterMap (fun e => (pfSettings e).map Prod.fst)).Nodup) :
    decodeSettings (Json.obj l) = l.filterMap pfSettings := by
  rw [decodeSettings]
  rw [List.foldl_ext (g := pfStep pfSettings)]
  · rw [foldl_pfStep_eq_filterMap pfSettings l []
      (fun e he iv hiv => dictContains_nil iv.1) hnd]
    rfl
  · intro acc e _
    cases hpi : pyInt e.1 with
    | none =>
      have h1 : pfSettings e = none := by rw [pfSettings, hpi]; rfl
      rw [pfStep_none pfSettings acc e h1]
    | some sid =>
      cases hv : e.2
      case obj st =>
        have h1 : pfSettings e = some (sid, st) := by rw [pfSettings, hpi, hv]; rfl
        rw [pfStep_some pfSettings acc e (sid, st) h1]
      all_goals
        have h1 : pfSettings e = none := by rw [pfSettings, hpi, hv]; rfl
        rw [pfStep_none pfSettings acc e h1]

/-! ## Lemmas: decoding inverts encoding -/

theorem filterMap_map_all_some {α β γ : Type} (f : β → Option γ) (g : α → β) (h : α → γ)
    (l : List α) (H : ∀ x ∈ l, f (g x) = some (h x)) :
    List.filterMap f (l.map g) = l.map h := by
  induction l with
  | nil => rfl
  | cons x xs ih =>
    rw [List.map_cons, List.filterMap_cons_some (H x (List.mem_cons_self x xs)),
      List.map_cons, ih (fun y hy => H y (List.mem_cons_of_mem x hy))]

theorem pfUsers_enc (uid : Int) (ws : List Json) :
    pfUsers (intToStr uid, Json.arr ws) = some (uid, ws) := by
  rw [pfUsers]
  show (pyInt (intToStr uid)).bind _ = _
  rw [pyInt_intToStr uid]
  rfl

theorem decode_encode_users (us : List (Int × List Json)) (hnd : (us.map Prod.fst).Nodup) :
    decodeUsersVal (Json.obj (us.map (fun u => (intToStr u.1, Json.arr u.2)))) = us := by
  have hpt : ∀ u ∈ us, pfUsers ((fun u => (intToStr u.1, Json.arr u.2)) u) = some u := by
    intro u _
    exact pfUsers_enc u.1 u.2
  rw [decodeUsersVal_obj]
  · rw [filterMap_map_all_some pfUsers _ (fun u => u) us hpt]
    simp
  · rw [filterMap_map_all_some (fun e => (pfUsers e).map Prod.fst) _ Prod.fst us
      (fun u hu => by
        show (pfUsers (intToStr u.1, Json.arr u.2)).map Prod.fst = some u.1
        rw [pfUsers_enc u.1 u.2]
        rfl)]
    exact hnd

theorem pfWarnings_enc (sid : Int) (users : List (Int × List Json)) :
    pfWarnings (intToStr sid,
        Json.obj (users.map (fun u => (intToStr u.1, Json.arr u.2))))
      = some (sid,
          decodeUsersVal (Json.obj (users.map (fun u => (intToStr u.1, Json.arr u.2))))) := by
  rw [pfWarnings]
  show (pyInt (intToStr sid)).map _ = _
  rw [pyInt_intToStr sid]
  rfl

theorem decode_encode_warnings (w : List (Int × List (Int × List Json)))
    (hnd : (w.map Prod.fst).Nodup)
    (hinner : ∀ e ∈ w, (e.2.map Prod.fst).Nodup) :
    decodeWarnings (Json.obj (w.map (fun e =>
        (intToStr e.1, Json.obj (e.2.map (fun u => (intToStr u.1, Json.arr u.2))))))) = w := by
  rw [decodeWarnings_obj]
  · rw [filterMap_map_all_some pfWarnings _
      (fun e => (e.1, decodeUsersVal (Json.obj (e.2.map (fun u => (intToStr u.1, Json.arr u.2))))))
      w (fun e _ => pfWarnings_enc e.1 e.2)]
    rw [List.map_congr_left (fun e he => by
      rw [decode_encode_users e.2 (hinner e he)] : ∀ e ∈ w, _ = (e.1, e.2))]
    simp
  · rw [filterMap_map_all_some (fun e => (pfWarnings e).map Prod.fst) _ Prod.fst w
      (fun e he => by
        show (pfWarnings (intToStr e.1,
          Json.obj (e.2.map (fun u => (intToStr u.1, Json.arr u.2))))).map Prod.fst = some e.1
        rw [pfWarnings_enc e.1 e.2]
        rfl)]
    exact hnd

theorem pfPunishments_enc (sid : Int) (pl : List Json) :
    pfPunishments (intToStr sid, Json.arr pl) = some (sid, pl) := by
  rw [pfPunishments]
  show (pyInt (intToStr sid)).bind _ = _
  rw [pyInt_intToStr sid]
  rfl

theorem decode_encode_punishments (pu : List (Int × List Json))
    (hnd : (pu.map Prod.fst).Nodup) :
    decodePunishments (Json.obj (pu.map (fun e => (intToStr e.1, Json.arr e.2)))) = pu := by
  rw [decodePunishments_obj]
  · rw [filterMap_map_all_some pfPunishments _ (fun e => e) pu
      (fun e _ => pfPunishments_enc e.1 e.2)]
    simp
  · rw [filterMap_map_all_some (fun e => (pfPunishments e).map Prod.fst) _ Prod.fst pu
      (fun e _ => by
        show (pfPunishments (intToStr e.1, Json.arr e.2)).map Prod.fst = some e.1
        rw [pfPunishments_enc e.1 e.2]
        rfl)]
    exact hnd

theorem pfSettings_enc (sid : Int) (st : List (Content × Json)) :
    pfSettings (intToStr sid, Json.obj st) = some (sid, st) := by
  rw [pfSettings]
  show (pyInt (intToStr sid)).bind _ = _
  rw [pyInt_intToStr sid]
  rfl

theorem decode_encode_settings (se : List (Int × List (Content × Json)))
    (hnd : (se.map Prod.fst).Nodup) :
    decodeSettings (Json.obj (se.map (fun e => (intToStr e.1, Json.obj e.2)))) = se := by
  rw [decodeSettings_obj]
  · rw [filterMap_map_all_some pfSettings _ (fun e => e) se
      (fun e _ => pfSettings_enc e.1 e.2)]
    simp
  · rw [filterMap_map_all_some (fun e => (pfSettings e).map Prod.fst) _ Prod.fst se
      (fun e _ => by
        show (pfSettings (intToStr e.1, Json.obj e.2)).map Prod.fst = some e.1
        rw [pfSettings_enc e.1 e.2]
        rfl)]
    exact hnd


theorem jget_encodeState (st : DBState) (meta : Json) :
    jget (encodeState st meta) kWarnings
        = Json.obj (st.warnings.map (fun e =>
            (intToStr e.1, Json.obj (e.2.map (fun u => (intToStr u.1, Json.arr u.2)))))) ∧
      jget (encodeState st meta) kPunishments
        = Json.obj (st.punishments.map (fun e => (intToStr e.1, Json.arr e.2))) ∧
      jget (encodeState st meta) kSettings
        = Json.obj (st.server_settings.map (fun e => (intToStr e.1, Json.obj e.2))) := by
  refine ⟨?_, ?_, ?_⟩ <;>
    simp [jget, encodeState, dictLookup,
      (by decide : ¬(kWarnings = kPunishments)), (by decide : ¬(kWarnings = kSettings)),
      (by decide : ¬(kPunishments = kSettings))]

theorem decodeData_encodeState (st : DBState) (meta : Json) (h : wfState st) :
    decodeData (encodeState st meta) = some st := by
  obtain ⟨hw, hwin, hp, hs⟩ := h
  have hobj : isObjWithWarnings (encodeState st meta) = true := by
    simp [isObjWithWarnings, encodeState, dictContains]
  rw [decodeData, if_pos hobj]
  obtain ⟨hg1, hg2, hg3⟩ := jget_encodeState st meta
  rw [decodeFromData, hg1, hg2, hg3, decode_encode_warnings st.warnings hw hwin,
    decode_encode_punishments st.punishments hp, decode_encode_settings st.server_settings hs]

/-! ## Lemmas: chunking -/

theorem chunksFuel_flatten (limit : Nat) (hl : 1 ≤ limit) :
    ∀ (f : Nat) (doc : Content), doc.length ≤ f → (chunksFuel f limit doc).flatten = doc := by
  intro f
  induction f with
  | zero =>
    intro doc hf
    rw [List.length_eq_zero.mp (Nat.le_zero.mp hf)]
    rfl
  | succ f ih =>
    intro doc hf
    cases doc with
    | nil => rfl
    | cons c r =>
      have hstep : chunksFuel (f + 1) limit (c :: r)
          = (c :: r).take limit :: chunksFuel f limit ((c :: r).drop limit) := rfl
      rw [hstep, List.flatten_cons, ih ((c :: r).drop limit) ?_, List.take_append_drop]
      rw [List.length_drop]
      simp only [List.length_cons] at hf ⊢
      omega

theorem chunksOf_flatten (limit : Nat) (doc : Content) (hl : 1 ≤ limit) :
    (chunksOf limit doc).flatten = doc :=
  chunksFuel_flatten limit hl doc.length doc (Nat.le_refl _)

theorem chunksFuel_length_le (limit : Nat) :
    ∀ (f : Nat) (doc : Content), ∀ c ∈ chunksFuel f limit doc, c.length ≤ limit := by
  intro f
  induction f with
  | zero => intro doc c hc; simp [chunksFuel] at hc
  | succ f ih =>
    intro doc c hc
    cases doc with
    | nil => simp [chunksFuel] at hc
    | cons x r =>
      have hstep : chunksFuel (f + 1) limit (x :: r)
          = (x :: r).take limit :: chunksFuel f limit ((x :: r).drop limit) := rfl
      rw [hstep] at hc
      rcases List.mem_cons.mp hc with rfl | hc
      · simp
      · exact ih _ c hc

theorem chunksOf_length_le (limit : Nat) (doc : Content) :
    ∀ c ∈ chunksOf limit doc, c.length ≤ limit :=
  chunksFuel_length_le limit doc.length doc

theorem chunksFuel_ne_nil (limit : Nat) :
    ∀ (f : Nat) (doc : Content), doc ≠ [] → doc.length ≤ f → chunksFuel f limit doc ≠ [] := by
  intro f doc hne hf
  cases f with
  | zero =>
    exact absurd (List.length_eq_zero.mp (Nat.le_zero.mp hf)) hne
  | succ f =>
    cases doc with
    | nil => exact absurd rfl hne
    | cons c r =>
      have hstep : chunksFuel (f + 1) limit (c :: r)
          = (c :: r).take limit :: chunksFuel f limit ((c :: r).drop limit) := rfl
      rw [hstep]
      simp

theorem chunksOf_ne_nil (limit : Nat) (doc : Content) (hne : doc ≠ []) :
    chunksOf limit doc ≠ [] :=
  chunksFuel_ne_nil limit doc.length doc hne (Nat.le_refl _)

/-! ## Lemmas: substring scanning -/

theorem isPrefixOf_append_self (l r : Content) : l.isPrefixOf (l ++ r) = true := by
  induction l with
  | nil => simp [List.isPrefixOf]
  | cons c t ih => simp [List.isPrefixOf, ih]

theorem length_le_of_isPrefixOf (pat l : Content) (h : pat.isPrefixOf l = true) :
    pat.length ≤ l.length := by
  induction pat generalizing l with
  | nil => simp
  | cons c t ih =>
    cases l with
    | nil => simp [List.isPrefixOf] at h
    | cons x r =>
      rw [List.isPrefixOf, Bool.and_eq_true] at h
      simpa using ih r h.2

theorem findSub_first_marker (pat p rest : Content) (hpat : pat ≠ [])
    (hp : ∀ c ∈ p, (pat.headI = c) = False) :
    findSub pat (p ++ (pat ++ rest)) = some p.length := by
  induction p with
  | nil =>
    obtain ⟨c, t, rfl⟩ := List.exists_cons_of_ne_nil hpat
    rw [List.nil_append]
    rw [findSub.eq_def]
    simp [isPrefixOf_append_self]
  | cons x p' ih =>
    obtain ⟨c, t, hct⟩ := List.exists_cons_of_ne_nil hpat
    have hx : (pat.headI = x) = False := hp x (List.mem_cons_self x p')
    have hnp : pat.isPrefixOf (x :: (p' ++ (pat ++ rest))) = false := by
      rw [hct, List.isPrefixOf]
      have : (c = x) = False := by
        rw [hct] at hx
        simpa using hx
      simp [this]
    rw [List.cons_append, findSub, hnp]
    rw [ih (fun c hc => hp c (List.mem_cons_of_mem x hc))]
    simp

theorem rfindAux_no_match (pat : Content) (hpat : pat ≠ []) :
    ∀ (l : Content) (b : Option Nat) (i : Nat),
      (∀ k, pat.isPrefixOf (l.drop k) = false) → rfindAux pat b i l = b := by
  intro l
  induction l with
  | nil =>
    intro b i _
    rw [rfindAux, if_neg hpat]
  | cons c r ih =>
    intro b i hk
    rw [rfindAux]
    have h0 := hk 0
    rw [List.drop_zero] at h0
    rw [h0]
    simp only [Bool.false_eq_true, if_neg (by simp : ¬False)]
    exact ih b (i + 1) (fun k => by simpa using hk (k + 1))

theorem rfindAux_append (pat : Content) (hpat : pat ≠ []) :
    ∀ (x : Content) (b : Option Nat) (i : Nat),
      rfindAux pat b i (x ++ pat) = some (i + x.length) := by
  intro x
  induction x with
  | nil =>
    intro b i
    obtain ⟨c, t, hct⟩ := List.exists_cons_of_ne_nil hpat
    rw [List.nil_append]
    conv =>
      lhs
      rw [hct, rfindAux]
    have hself : pat.isPrefixOf pat = true := by
      have := isPrefixOf_append_self pat []
      rwa [List.append_nil] at this
    rw [← hct, hself]
    simp only [if_pos trivial]
    rw [rfindAux_no_match pat hpat t (some i) (i + 1) ?_]
    · simp
    · intro k
      rcases hb : pat.isPrefixOf (t.drop k) with _ | _
      · rfl
      · have hlen := length_le_of_isPrefixOf pat (t.drop k) hb
        rw [List.length_drop] at hlen
        rw [hct] at hlen
        simp [List.length_cons] at hlen
        omega
  | cons c x' ih =>
    intro b i
    rw [List.cons_append, rfindAux]
    rw [ih _ (i + 1)]
    simp only [List.length_cons]
    congr 1
    omega

theorem rfindSub_append (pat s : Content) (hpat : pat ≠ []) :
    rfindSub pat (s ++ pat) = some s.length := by
  rw [rfindSub, rfindAux_append pat hpat s none 0]
  simp

theorem spanDigits_split (xs : Content) (y : Char) (ys : Content)
    (hxs : ∀ c ∈ xs, isDigit c = true) (hy : isDigit y = false) :
    spanDigits (xs ++ y :: ys) = (xs, y :: ys) := by
  induction xs with
  | nil => simp [spanDigits, hy]
  | cons c t ih =>
    rw [List.cons_append, spanDigits.eq_def]
    simp only [hxs c (List.mem_cons_self c t), if_pos trivial]
    rw [ih (fun z hz => hxs z (List.mem_cons_of_mem c hz))]

theorem dropPrefixCL_self_append (p s : Content) : dropPrefixCL p (p ++ s) = some s := by
  induction p with
  | nil => rfl
  | cons c t ih => simp [dropPrefixCL, ih]

/-! ## Lemmas: the part envelope on the wire -/


theorem mkPartMsg_eq1 (i n : Nat) (c : Content) :
    mkPartMsg i n c = partHeader i n ++ (fenceJson ++ ('\n' :: c ++ '\n' :: ticks3)) := by
  simp [mkPartMsg, partHeader, List.append_assoc]

theorem mkPartMsg_eq2 (i n : Nat) (c : Content) :
    mkPartMsg i n c
      = (partHeader i n ++ fenceJson ++ ('\n' :: c ++ ['\n'])) ++ ticks3 := by
  simp [mkPartMsg, partHeader, List.append_assoc]

theorem ne_tick_of_isDigit (ch : Char) (h : isDigit ch = true) : ('`' = ch) = False := by
  apply eq_false
  rintro rfl
  simp [isDigit] at h

theorem partHeader_no_tick (i n : Nat) :
    ∀ ch ∈ partHeader i n, (fenceJson.headI = ch) = False := by
  intro ch hch
  show ('`' = ch) = False
  apply eq_false
  rintro rfl
  simp +decide only [partHeader, litPartSp, List.mem_cons, List.mem_append,
    List.mem_singleton, List.not_mem_nil, or_false, false_or] at hch
  rcases hch with h | h
  · exact absurd ((natToStr_spec i).2.1 _ h) (by decide)
  · exact absurd ((natToStr_spec n).2.1 _ h) (by decide)

theorem findSub_mkPartMsg (i n : Nat) (c : Content) :
    findSub fenceJson (mkPartMsg i n c) = some (partHeader i n).length := by
  rw [mkPartMsg_eq1]
  exact findSub_first_marker fenceJson (partHeader i n) _ (by simp [fenceJson])
    (partHeader_no_tick i n)

theorem rfindSub_mkPartMsg (i n : Nat) (c : Content) :
    rfindSub ticks3 (mkPartMsg i n c)
      = some ((partHeader i n).length + 7 + (c.length + 2)) := by
  rw [mkPartMsg_eq2, rfindSub_append ticks3 _ (by simp [ticks3])]
  simp [List.length_append, List.length_cons, fenceJson]
  omega

theorem pySlice_extract (A mid B : Content) :
    pySlice A.length (A.length + mid.length) (A ++ (mid ++ B)) = mid := by
  rw [pySlice, show A.length + mid.length - A.length = mid.length by omega]
  rw [List.drop_left, List.take_left]

theorem extractJson_eq (cnt : Content) (f r : Nat)
    (h1 : findSub fenceJson cnt = some f) (h2 : rfindSub ticks3 cnt = some r) :
    extractJson cnt = if f + 7 < r then some (pySlice (f + 7) r cnt) else none := by
  rw [extractJson, h1, h2]

theorem extractJson_mkPartMsg (i n : Nat) (c : Content) :
    extractJson (mkPartMsg i n c) = some ('\n' :: c ++ ['\n']) := by
  rw [extractJson_eq _ _ _ (findSub_mkPartMsg i n c) (rfindSub_mkPartMsg i n c)]
  rw [if_pos (by omega)]
  congr 1
  have hmid : c.length + 2 = ('\n' :: c ++ ['\n']).length := by
    simp
  have hfj : (partHeader i n).length + 7 = (partHeader i n ++ fenceJson).length := by
    simp [fenceJson]
  have harg : mkPartMsg i n c
      = (partHeader i n ++ fenceJson) ++ (('\n' :: c ++ ['\n']) ++ ticks3) := by
    rw [mkPartMsg_eq2]
    simp [List.append_assoc]
  rw [harg, hfj, hmid]
  exact pySlice_extract _ _ _

/-! ## Lemmas: containment tests on the envelope -/

theorem containsSub_cons (pat : Content) (c : Char) (r : Content)
    (h : containsSub pat r = true) : containsSub pat (c :: r) = true := by
  rw [containsSub, findSub]
  by_cases hp : pat.isPrefixOf (c :: r) = true
  · simp [hp]
  · simp only [hp]
    rw [containsSub] at h
    simp [h]

theorem containsSub_append_pat (pat x rest : Content) (hpat : pat ≠ []) :
    containsSub pat (x ++ (pat ++ rest)) = true := by
  induction x with
  | nil =>
    obtain ⟨c, t, hct⟩ := List.exists_cons_of_ne_nil hpat
    rw [List.nil_append, containsSub]
    conv =>
      lhs
      rw [hct, List.cons_append, findSub]
    rw [← List.cons_append, ← hct, isPrefixOf_append_self]
    simp
  | cons y x' ih =>
    rw [List.cons_append]
    exact containsSub_cons pat y _ ih

theorem containsSub_litPart_mkPartMsg (i n : Nat) (c : Content) :
    containsSub litPart (mkPartMsg i n c) = true := by
  have hform : mkPartMsg i n c
      = ['*', '*'] ++ (litPart ++ (' ' :: natToStr i ++ '/' :: natToStr n ++
          ':' :: '*' :: '*' :: '\n' :: (fenceJson ++ '\n' :: c ++ '\n' :: ticks3))) := by
    simp [mkPartMsg, litPartSp, litPart, List.append_assoc]
  rw [hform]
  exact containsSub_append_pat litPart _ _ (by simp [litPart])

theorem containsSub_fenceJson_mkPartMsg (i n : Nat) (c : Content) :
    containsSub fenceJson (mkPartMsg i n c) = true := by
  rw [mkPartMsg_eq1]
  exact containsSub_append_pat fenceJson _ _ (by simp [fenceJson])

theorem ne_nil_of_fenceOk (c : Content) (h : fenceOk c = true) : c ≠ [] := by
  rintro rfl
  rw [show fenceOk ([] : Content) = false by decide] at h
  exact Bool.false_ne_true h

/-! ## Lemmas: `enumerate` -/

theorem enumFrom_fst_ge {α : Type} (l : List α) :
    ∀ i, ∀ p ∈ enumFrom i l, i ≤ p.1 := by
  induction l with
  | nil => intro i p hp; simp [enumFrom] at hp
  | cons x xs ih =>
    intro i p hp
    rw [enumFrom] at hp
    rcases List.mem_cons.mp hp with rfl | hp
    · exact Nat.le_refl _
    · exact Nat.le_of_succ_le (ih (i + 1) p hp)

theorem enumFrom_pairwise_lt {α : Type} (l : List α) :
    ∀ i, (enumFrom i l).Pairwise (fun a b => a.1 < b.1) := by
  induction l with
  | nil => intro i; simp [enumFrom]
  | cons x xs ih =>
    intro i
    rw [enumFrom, List.pairwise_cons]
    exact ⟨fun p hp => Nat.lt_of_succ_le (enumFrom_fst_ge xs (i + 1) p hp), ih (i + 1)⟩

theorem enumFrom_map_snd {α β : Type} (g : α → β) (l : List α) :
    ∀ i, (enumFrom i l).map (fun p => g p.2) = l.map g := by
  induction l with
  | nil => intro i; rfl
  | cons x xs ih => intro i; simp [enumFrom, ih]

/-! ## Lemmas: the part-marker regex on the envelope -/

theorem tryPartHere_star (z : Content) : tryPartHere ('*' :: z) = none := rfl

theorem tryPartHere_envelope (i n : Nat) (rest : Content) :
    tryPartHere ('P' :: 'a' :: 'r' :: 't' :: ' ' ::
        (natToStr i ++ '/' :: (natToStr n ++ ':' :: rest)))
      = some (i, n) := by
  obtain ⟨hne_i, hdig_i, hval_i⟩ := natToStr_spec i
  obtain ⟨hne_n, hdig_n, hval_n⟩ := natToStr_spec n
  show tryPartHere (litPartSp ++ (natToStr i ++ '/' :: (natToStr n ++ ':' :: rest)))
      = some (i, n)
  rw [tryPartHere, dropPrefixCL_self_append]
  simp only [spanDigits_split (natToStr i) '/' _ hdig_i (by decide),
    spanDigits_split (natToStr n) ':' rest hdig_n (by decide),
    if_neg hne_i, if_neg hne_n, hval_i, hval_n]

theorem findPartMarker_cons_found (c : Char) (r : Content) (x : Nat × Nat)
    (h : tryPartHere (c :: r) = some x) : findPartMarker (c :: r) = some x := by
  rw [findPartMarker, h]

theorem findPartMarker_cons_miss (c : Char) (r : Content)
    (h : tryPartHere (c :: r) = none) : findPartMarker (c :: r) = findPartMarker r := by
  rw [findPartMarker, h]

theorem findPartMarker_mkPartMsg (i n : Nat) (c : Content) :
    findPartMarker (mkPartMsg i n c) = some (i, n) := by
  have hform : mkPartMsg i n c = '*' :: '*' :: 'P' :: 'a' :: 'r' :: 't' :: ' ' ::
      (natToStr i ++ '/' :: (natToStr n ++ ':' ::
        ('*' :: '*' :: '\n' :: (fenceJson ++ '\n' :: c ++ '\n' :: ticks3)))) := by
    simp [mkPartMsg, litPartSp, List.append_assoc]
  rw [hform, findPartMarker_cons_miss _ _ (tryPartHere_star _),
    findPartMarker_cons_miss _ _ (tryPartHere_star _)]
  exact findPartMarker_cons_found _ _ _ (tryPartHere_envelope i n _)

/-! ## Lemmas: the multi-part scan -/

theorem collectParts_cons (m : Msg) (rest : List Msg) :
    collectParts (m :: rest) = collectStep m ++ collectParts rest := rfl

theorem collectStep_mkPartMsg (t : Nat) (fs : Bool) (i n : Nat) (c : Content) :
    collectStep ⟨t, fs, mkPartMsg i n c⟩ = [(i, '\n' :: c ++ ['\n'], t)] := by
  rw [collectStep]
  show (if containsSub litPart (mkPartMsg i n c) && containsSub fenceJson (mkPartMsg i n c)
      then _ else _) = _
  rw [containsSub_litPart_mkPartMsg, containsSub_fenceJson_mkPartMsg, if_pos (by rfl),
    findPartMarker_mkPartMsg, extractJson_mkPartMsg]

theorem collectParts_map {α : Type} (f : α → Msg) (g : α → Nat × Content × Nat)
    (l : List α) (H : ∀ x ∈ l, collectStep (f x) = [g x]) :
    collectParts (l.map f) = l.map g := by
  induction l with
  | nil => rfl
  | cons x xs ih =>
    rw [List.map_cons, collectParts_cons, H x (List.mem_cons_self x xs),
      ih (fun y hy => H y (List.mem_cons_of_mem x hy)), List.map_cons]
    rfl

/-! ## Lemmas: phase 1 of the reconstruction -/

theorem jsonLoads_nil : jsonLoads [] = none := rfl

theorem phase1_skip_shape (m : Msg) (rest : List Msg) (v : Json)
    (hf : fenceOk m.content = true)
    (hj : jsonLoads (pyStrip (sliceInner m.content)) = some v)
    (hw : isObjWithWarnings v = false) :
    phase1 (m :: rest) = phase1 rest := by
  have hi : pyStrip (sliceInner m.content) ≠ [] := by
    intro hnil
    rw [hnil, jsonLoads_nil] at hj
    exact Option.noConfusion hj
  rw [phase1, if_neg (ne_nil_of_fenceOk m.content hf), if_pos hf, if_neg hi, hj]
  show (if isObjWithWarnings v = true then some (decodeFromData v) else phase1 rest)
      = phase1 rest
  rw [if_neg (by simp [hw])]

theorem phase1_accept (m : Msg) (rest : List Msg) (v : Json)
    (hf : fenceOk m.content = true)
    (hj : jsonLoads (pyStrip (sliceInner m.content)) = some v)
    (hw : isObjWithWarnings v = true) :
    phase1 (m :: rest) = some (decodeFromData v) := by
  have hi : pyStrip (sliceInner m.content) ≠ [] := by
    intro hnil
    rw [hnil, jsonLoads_nil] at hj
    exact Option.noConfusion hj
  rw [phase1, if_neg (ne_nil_of_fenceOk m.content hf), if_pos hf, if_neg hi, hj]
  show (if isObjWithWarnings v = true then some (decodeFromData v) else phase1 rest)
      = some (decodeFromData v)
  rw [if_pos hw]

theorem collectParts_partMsgs (limit : Nat) (doc : Content) :
    collectParts (partMsgs limit doc)
      = (enumFrom 1 (chunksOf limit doc)).map
          (fun p => (p.1, '\n' :: p.2 ++ ['\n'], 0)) := by
  rw [partMsgs, partContents, List.map_map]
  exact collectParts_map _ _ _
    (fun p _ => collectStep_mkPartMsg 0 true p.1 (chunksOf limit doc).length p.2)

theorem collectParts_partMsgs_reverse (limit : Nat) (doc : Content) :
    collectParts ((partMsgs limit doc).reverse)
      = ((enumFrom 1 (chunksOf limit doc)).map
          (fun p => (p.1, '\n' :: p.2 ++ ['\n'], 0))).reverse := by
  rw [partMsgs, partContents, List.map_map, ← List.map_reverse, ← List.map_reverse]
  exact collectParts_map _ _ _
    (fun p _ => collectStep_mkPartMsg 0 true p.1 (chunksOf limit doc).length p.2)

theorem combinedJson_enum (limit : Nat) (doc : Content) :
    combinedJson ((enumFrom 1 (chunksOf limit doc)).map
        (fun p => (p.1, '\n' :: p.2 ++ ['\n'], 0)))
      = nlJoin (chunksOf limit doc) := by
  rw [combinedJson, pySortBy_of_sorted]
  · rw [List.map_map]
    rw [show ((fun (x : Nat × Content × Nat) => x.2.1) ∘
        (fun p : Nat × Content => (p.1, '\n' :: p.2 ++ ['\n'], 0)))
      = fun p : Nat × Content => '\n' :: p.2 ++ ['\n'] from rfl]
    rw [enumFrom_map_snd (fun c => '\n' :: c ++ ['\n']) (chunksOf limit doc) 1]
    rfl
  · rw [List.pairwise_map]
    exact (enumFrom_pairwise_lt (chunksOf limit doc) 1).imp (fun h => Nat.le_of_lt h)

theorem combinedJson_enum_reverse (limit : Nat) (doc : Content) :
    combinedJson (((enumFrom 1 (chunksOf limit doc)).map
        (fun p => (p.1, '\n' :: p.2 ++ ['\n'], 0))).reverse)
      = nlJoin (chunksOf limit doc) := by
  rw [combinedJson, pySortBy_of_rev_sorted, List.reverse_reverse]
  · rw [List.map_map]
    rw [show ((fun (x : Nat × Content × Nat) => x.2.1) ∘
        (fun p : Nat × Content => (p.1, '\n' :: p.2 ++ ['\n'], 0)))
      = fun p : Nat × Content => '\n' :: p.2 ++ ['\n'] from rfl]
    rw [enumFrom_map_snd (fun c => '\n' :: c ++ ['\n']) (chunksOf limit doc) 1]
    rfl
  · rw [List.pairwise_reverse, List.pairwise_map]
    exact (enumFrom_pairwise_lt (chunksOf limit doc) 1).imp (fun h => h)

/-! ## Lemmas: the debounced saver -/

theorem batchSaveCall_pending (s : SaverState) (t : Nat) (h : s.pending = true) :
    batchSaveCall s t = (s, []) := by
  rw [batchSaveCall, if_pos h]

theorem batchSaveCall_free (s : SaverState) (t : Nat) (h : s.pending = false) :
    batchSaveCall s t = ({ s with pending := true }, [t + 5]) := by
  rw [batchSaveCall, if_neg (by simp [h])]

theorem saveCallStep_pending (acc : SaverState × List Nat) (t : Nat)
    (h : acc.1.pending = true) : saveCallStep acc t = acc := by
  rw [saveCallStep, batchSaveCall_pending acc.1 t h]
  simp

theorem foldl_calls_pending (ts : List Nat) :
    ∀ (acc : SaverState × List Nat), acc.1.pending = true →
      ts.foldl saveCallStep acc = acc := by
  induction ts with
  | nil => intro acc _; rfl
  | cons t ts ih =>
    intro acc hp
    rw [List.foldl_cons, saveCallStep_pending acc t hp]
    exact ih acc hp

theorem runBurst_single_window (s : SaverState) (t1 : Nat) (ts : List Nat)
    (hp : s.pending = false) :
    runBurst s (t1 :: ts) = batchSaveWake { s with pending := true } (t1 + 5) := by
  have hfold : (t1 :: ts).foldl saveCallStep (s, [])
      = (({ s with pending := true }, [t1 + 5]) : SaverState × List Nat) := by
    rw [List.foldl_cons]
    have h1 : saveCallStep (s, []) t1
        = (({ s with pending := true }, [t1 + 5]) : SaverState × List Nat) := by
      rw [saveCallStep]
      show ((batchSaveCall s t1).1, [] ++ (batchSaveCall s t1).2) = _
      rw [batchSaveCall_free s t1 hp]
      rfl
    rw [h1, foldl_calls_pending ts _ rfl]
  rw [runBurst, hfold]
  rfl

/-! ## Lemmas: the state store -/

theorem dictContains_insert_self {κ ν : Type} [DecidableEq κ] (k : κ) (v : ν)
    (l : List (κ × ν)) : dictContains k (dictInsert k v l) = true := by
  rw [dictContains_eq_isSome_lookup, dictLookup_insert_self]
  rfl

theorem dictLookup_of_not_contains {κ ν : Type} [DecidableEq κ] (k : κ)
    (l : List (κ × ν)) (h : dictContains k l = false) : dictLookup k l = none := by
  rw [dictContains_eq_isSome_lookup] at h
  cases hl : dictLookup k l with
  | none => rfl
  | some v => rw [hl] at h; simp at h

theorem get_user_warnings_fst (st : DBState) (sid uid : Int) :
    (get_user_warnings st sid uid).1
      = (dictLookup uid ((dictLookup sid st.warnings).getD [])).getD [] := by
  rw [get_user_warnings]
  by_cases hs : dictContains sid st.warnings = true
  · rw [if_pos hs]
    by_cases hu : dictContains uid ((dictLookup sid st.warnings).getD []) = true
    · rw [if_pos hu]
    · rw [if_neg hu, dictLookup_insert_self]
      rw [dictLookup_of_not_contains uid _ (by simpa using hu)]
      rfl
  · rw [if_neg hs, dictLookup_insert_self]
    simp only [Option.getD_some]
    rw [show dictContains uid ([] : List (Int × List Json)) = false from rfl]
    simp only [Bool.false_eq_true, if_neg (by simp : ¬False)]
    rw [dictLookup_insert_self]
    rw [dictLookup_of_not_contains sid _ (by simpa using hs)]
    rfl

theorem clear_warnings_removes (st : DBState) (sid uid : Int) :
    dictContains uid ((dictLookup sid (clear_warnings st sid uid).warnings).getD [])
      = false := by
  rw [clear_warnings]
  by_cases hg : (dictContains sid st.warnings
      && dictContains uid ((dictLookup sid st.warnings).getD [])) = true
  · rw [if_pos hg]
    show dictContains uid ((dictLookup sid (dictInsert sid _ st.warnings)).getD []) = false
    rw [dictLookup_insert_self]
    exact dictContains_erase_self uid _
  · rw [if_neg hg]
    rw [Bool.and_eq_true] at hg
    by_cases hs : dictContains sid st.warnings = true
    · rcases Bool.eq_false_or_eq_true
        (dictContains uid ((dictLookup sid st.warnings).getD [])) with h | h
      · exact absurd ⟨hs, h⟩ hg
      · exact h
    · rw [dictLookup_of_not_contains sid _ (by simpa using hs)]
      rfl


/-! ## C7 -/

/-- C7 counterexample: the claim says `clear` replaces the member's
warning list with the empty list and does not delete the entry, so after
clearing `(1, 42)` the member key 42 should still be present (mapped to
`[]`); in the code `del warnings[gid][uid]` removes the key entirely. -/
theorem C7_counterexample :
    dictContains 42 ((dictLookup 1 (clear_warnings st0C7 1 42).warnings).getD [])
      = false := by
  decide

/-- C7 (amended): `clear` removes the member's entry from the
per-community dict entirely (it is not kept as an empty list); a
subsequent `get_user_warnings` still returns a zero-length sequence and
never raises, because `get` creates missing entries on access — and in
general `get` returns the stored list or `[]`, for any identifiers. -/
theorem C7_clear_get_amended (st : DBState) (sid uid : Int) :
    dictContains uid ((dictLookup sid (clear_warnings st sid uid).warnings).getD [])
        = false ∧
      (get_user_warnings (clear_warnings st sid uid) sid uid).1 = [] ∧
      (get_user_warnings st sid uid).1
        = (dictLookup uid ((dictLookup sid st.warnings).getD [])).getD [] := by
  refine ⟨clear_warnings_removes st sid uid, ?_, get_user_warnings_fst st sid uid⟩
  rw [get_user_warnings_fst,
    dictLookup_of_not_contains uid _ (clear_warnings_removes st sid uid)]
  rfl

/-! ## C5 -/

/-- C5 counterexample: five `batch_save_database` calls in one debounce
window produce zero channel writes, not exactly one, when fewer than 30
seconds have passed since the last completed save at the moment the
5-second sleep ends (here: last save at 100, burst at 101..104, wake at
106). -/
theorem C5_counterexample :
    (runBurst ⟨false, 100, 0⟩ [101, 102, 103, 103, 104]).writes ≠ 1 := by
  decide

/-- C5 (amended): a burst of calls within one debounce window is
coalesced by the pending flag into a single scheduled flush, which
performs at most one write — exactly one if and only if at least 30
seconds have passed since the last completed save when the 5-second
window expires, and zero otherwise; the pending flag is clear
afterwards. -/
theorem C5_debounce_amended (s : SaverState) (t1 : Nat) (ts : List Nat)
    (hp : s.pending = false) (_hwin : ∀ t ∈ ts, t1 ≤ t ∧ t < t1 + 5) :
    (runBurst s (t1 :: ts)).writes
        = s.writes + (if s.lastSave + 30 ≤ t1 + 5 then 1 else 0) ∧
      (runBurst s (t1 :: ts)).writes ≤ s.writes + 1 ∧
      (runBurst s (t1 :: ts)).pending = false := by
  rw [runBurst_single_window s t1 ts hp]
  by_cases h30 : s.lastSave + 30 ≤ t1 + 5
  · refine ⟨?_, ?_, ?_⟩ <;> simp [batchSaveWake, h30]
  · refine ⟨?_, ?_, ?_⟩ <;> simp [batchSaveWake, h30]

/-- C5 witness: a burst of five calls at 50..54 with the last save at 0
produces exactly one write. -/
theorem C5_debounce_amended_witness :
    (runBurst ⟨false, 0, 0⟩ [50, 51, 52, 53, 54]).writes
        = 0 + (if 0 + 30 ≤ 50 + 5 then 1 else 0) ∧
      (runBurst ⟨false, 0, 0⟩ [50, 51, 52, 53, 54]).writes ≤ 0 + 1 ∧
      (runBurst ⟨false, 0, 0⟩ [50, 51, 52, 53, 54]).pending = false :=
  C5_debounce_amended ⟨false, 0, 0⟩ 50 [51, 52, 53, 54] rfl (by decide)

/-! ## C8 -/

theorem enumFrom_length {α : Type} (l : List α) : ∀ i, (enumFrom i l).length = l.length := by
  induction l with
  | nil => intro i; rfl
  | cons x xs ih => intro i; simp [enumFrom, ih]

theorem save_msgs_length (doc : Content) (h : 1900 < doc.length) :
    (save_database_msgs doc).length = (chunksOf 1900 doc).length + 1 := by
  rw [save_database_msgs, if_pos h]
  simp [partContents, enumFrom_length]

/-- C8 counterexample: a chunked save posts the header embed message in
addition to the part messages, so a document over the limit (here 4500
characters) leaves `total + 1` new messages in the channel, not `total`
as claimed. -/
theorem C8_counterexample :
    (save_database_msgs docC8).length ≠ (chunksOf 1900 docC8).length := by
  rw [save_msgs_length docC8 (by rw [docC8, List.length_replicate]; omega)]
  omega

/-- C8 (amended): each successful chunked write appends exactly
`total + 1` new messages to the channel history — one header embed
message plus one transport message per part, the parts in index order —
and never deletes or edits previously posted messages (the history is
only ever appended to). -/
theorem C8_save_effect_amended (doc : Content) (h : 1900 < doc.length) (hist : List Sent) :
    apply_save hist doc
        = hist ++ (Sent.embedOnly :: (partContents 1900 doc).map Sent.withContent) ∧
      (save_database_msgs doc).length = (chunksOf 1900 doc).length + 1 := by
  constructor
  · rw [apply_save, save_database_msgs, if_pos h]
  · exact save_msgs_length doc h

/-- C8 witness: the amended frame effect at the 4500-character document
appended to an empty history. -/
theorem C8_save_effect_amended_witness :
    1900 < docC8.length ∧
      (apply_save [] docC8
          = [] ++ (Sent.embedOnly :: (partContents 1900 docC8).map Sent.withContent) ∧
        (save_database_msgs docC8).length = (chunksOf 1900 docC8).length + 1) :=
  ⟨by rw [docC8, List.length_replicate]; omega,
   C8_save_effect_amended docC8 (by rw [docC8, List.length_replicate]; omega) []⟩

/-! ## C10 -/

/-- C10: loading fully replaces the in-memory state: the result of
`load_database` never depends on the previous state; a missing channel
yields exactly the empty snapshot; and when neither reconstruction phase
finds a decodable snapshot the result is again exactly the empty
snapshot — never a mixture with pre-load entries. -/
theorem C10_load_replaces (pre pre2 : DBState) (ch : Option (List Msg)) :
    load_database pre ch = load_database pre2 ch ∧
      load_database pre none = emptyState ∧
      (∀ h, phase1 (scanOrder h) = none → phase2 (scanOrder h) = none →
        load_database pre (some h) = emptyState) := by
  refine ⟨?_, rfl, ?_⟩
  · cases ch <;> rfl
  · intro h h1 h2
    show loadFromHistory (scanOrder h) = emptyState
    rw [loadFromHistory, h1, h2]

/-- C10 witness: a nonempty pre-load state is discarded both on the
missing-channel path and on an empty history. -/
theorem C10_load_replaces_witness :
    load_database st0C7 none = load_database emptyState none ∧
      load_database st0C7 none = emptyState ∧
      load_database st0C7 (some []) = emptyState :=
  ⟨(C10_load_replaces st0C7 emptyState none).1,
   (C10_load_replaces st0C7 emptyState none).2.1,
   (C10_load_replaces st0C7 emptyState (some [])).2.2 [] rfl rfl⟩

/-! ## C9 -/

/-- C9: a self-authored single message is accepted as the current
snapshot only when its fenced body parses to a dict containing the
top-level `"warnings"` key: when the JSON is valid but the value lacks
`"warnings"` (or is not an object), phase 1 silently skips the message
and continues the search on the remaining messages, exactly as it does
for a parse failure; when the key is present the message is accepted and
decoded. -/
theorem C9_skip_without_warnings (m : Msg) (rest : List Msg) (v : Json)
    (hf : fenceOk m.content = true)
    (hj : jsonLoads (pyStrip (sliceInner m.content)) = some v) :
    (isObjWithWarnings v = false → phase1 (m :: rest) = phase1 rest) ∧
      (isObjWithWarnings v = true → phase1 (m :: rest) = some (decodeFromData v)) :=
  ⟨fun hw => phase1_skip_shape m rest v hf hj hw,
   fun hw => phase1_accept m rest v hf hj hw⟩

/-- C9 witness: a fenced message whose valid JSON body has no
`"warnings"` key is skipped and the scan continues. -/
theorem C9_skip_without_warnings_witness :
    fenceOk (mkSingleMsg docNoW) = true ∧
      jsonLoads (pyStrip (sliceInner (mkSingleMsg docNoW))) = some vNoW ∧
      isObjWithWarnings vNoW = false ∧
      phase1 [⟨5, true, mkSingleMsg docNoW⟩] = phase1 [] :=
  ⟨rfl, rfl, rfl,
   (C9_skip_without_warnings ⟨5, true, mkSingleMsg docNoW⟩ [] vNoW rfl rfl).1 rfl⟩

/-! ## C4 -/

/-- C4: for every StateSnapshot within schema constraints (each dict has
distinct keys — true of every real Python dict), decoding the encoded
document value reproduces the state exactly: same mapping contents, same
order, all fields. `encodeState` is the JSON value `save_database` dumps
(with `int` keys stringified), decoding is the per-entry parsing of
`load_database`. -/
theorem C4_encode_decode_roundtrip (st : DBState) (meta : Json) (h : wfState st) :
    decodeData (encodeState st meta) = some st :=
  decodeData_encodeState st meta h

/-- C4 witness: the round trip at a state exercising all three maps. -/
theorem C4_encode_decode_roundtrip_witness :
    wfState stW ∧ decodeData (encodeState stW Json.null) = some stW :=
  ⟨⟨by decide, by decide, by decide, by decide⟩,
   C4_encode_decode_roundtrip stW Json.null ⟨by decide, by decide, by decide, by decide⟩⟩

/-! ## C6 -/

/-- C6: per-entry defensive decoding. For any persisted document value,
the decoder keeps exactly the entries whose community-id key parses as an
integer (`pfWarnings`/`pfPunishments`/`pfSettings` also require the
value's shape to be right, and inside `warnings` the member-id keys to
parse), and drops exactly the rest; the characterization as a total
`filterMap` also shows the load never raises: malformed entries are
skipped, well-formed ones are all recovered. -/
theorem C6_defensive_decode (lw lp ls : List (Content × Json)) (mv : Json)
    (h1 : (lw.filterMap (fun e => (pfWarnings e).map Prod.fst)).Nodup)
    (h2 : (lp.filterMap (fun e => (pfPunishments e).map Prod.fst)).Nodup)
    (h3 : (ls.filterMap (fun e => (pfSettings e).map Prod.fst)).Nodup) :
    decodeFromData (Json.obj [(kWarnings, Json.obj lw), (kPunishments, Json.obj lp),
        (kSettings, Json.obj ls), (kMetadata, mv)])
      = ⟨lw.filterMap pfWarnings, lp.filterMap pfPunishments, ls.filterMap pfSettings⟩ := by
  have hg1 : jget (Json.obj [(kWarnings, Json.obj lw), (kPunishments, Json.obj lp),
      (kSettings, Json.obj ls), (kMetadata, mv)]) kWarnings = Json.obj lw := by
    simp [jget, dictLookup]
  have hg2 : jget (Json.obj [(kWarnings, Json.obj lw), (kPunishments, Json.obj lp),
      (kSettings, Json.obj ls), (kMetadata, mv)]) kPunishments = Json.obj lp := by
    simp [jget, dictLookup, (by decide : ¬(kWarnings = kPunishments))]
  have hg3 : jget (Json.obj [(kWarnings, Json.obj lw), (kPunishments, Json.obj lp),
      (kSettings, Json.obj ls), (kMetadata, mv)]) kSettings = Json.obj ls := by
    simp [jget, dictLookup, (by decide : ¬(kWarnings = kSettings)),
      (by decide : ¬(kPunishments = kSettings))]
  rw [decodeFromData, hg1, hg2, hg3, decodeWarnings_obj lw h1,
    decodePunishments_obj lp h2, decodeSettings_obj ls h3]

/-- C6 witness: a document with malformed keys (`"x"`, `" 4"` parses,
`"y"` does not) and malformed values (a number where a list or dict is
expected) decodes to exactly the well-formed entries. -/
theorem C6_defensive_decode_witness :
    (c6lw.filterMap (fun e => (pfWarnings e).map Prod.fst)).Nodup ∧
      (c6lp.filterMap (fun e => (pfPunishments e).map Prod.fst)).Nodup ∧
      (c6ls.filterMap (fun e => (pfSettings e).map Prod.fst)).Nodup ∧
      decodeFromData (Json.obj [(kWarnings, Json.obj c6lw), (kPunishments, Json.obj c6lp),
          (kSettings, Json.obj c6ls), (kMetadata, Json.null)])
        = ⟨c6lw.filterMap pfWarnings, c6lp.filterMap pfPunishments,
           c6ls.filterMap pfSettings⟩ :=
  ⟨by decide, by decide, by decide,
   C6_defensive_decode c6lw c6lp c6ls Json.null (by decide) (by decide) (by decide)⟩

/-! ## C1 -/

theorem mkPartMsg_length (i n : Nat) (c : Content) :
    (mkPartMsg i n c).length = (partHeader i n).length + c.length + 12 := by
  rw [mkPartMsg_eq2]
  simp [List.length_append, fenceJson, ticks3]
  omega

theorem partHeader_length_ge (i n : Nat) : 14 ≤ (partHeader i n).length := by
  have hi : 1 ≤ (natToStr i).length := List.length_pos.mpr (natToStr_spec i).1
  have hn : 1 ≤ (natToStr n).length := List.length_pos.mpr (natToStr_spec n).1
  simp [partHeader, litPartSp, List.length_append]
  omega

theorem nlJoin_cons (c : Content) (rest : List Content) :
    nlJoin (c :: rest) = '\n' :: (c ++ '\n' :: nlJoin rest) := by
  rw [nlJoin, List.map_cons, List.flatten_cons]
  simp [nlJoin, List.append_assoc]

theorem chunksOf_cons (limit : Nat) (x : Char) (r : Content) :
    chunksOf limit (x :: r)
      = (x :: r).take limit :: chunksFuel r.length limit ((x :: r).drop limit) := rfl

/-- C1 counterexample: with the serialized document `docC1` of 1901
`'a'`s and the code's limit 1900, (a) the multi-part reassembly of the
split does not reproduce the document — the extraction keeps the `'\n'`
padding of each envelope, so the joined text starts with `'\n'` — and
(b) not every part fits within the limit once wrapped: the first wrapped
part message is 1926 characters long. -/
theorem C1_counterexample :
    combinedJson (collectParts (partMsgs 1900 docC1)) ≠ docC1 ∧
      ¬(∀ mc ∈ partContents 1900 docC1, mc.length ≤ 1900) := by
  have hd : docC1 = 'a' :: List.replicate 1900 'a' := by
    rw [docC1, show (1901 : Nat) = 1900 + 1 from rfl, List.replicate_succ]
  constructor
  · rw [collectParts_partMsgs, combinedJson_enum]
    conv =>
      lhs
      rw [hd, chunksOf_cons, nlJoin_cons]
    intro hEq
    have h0 : ('\n' : Char) = 'a' := by
      have h1 := congrArg List.headI (hEq.trans hd)
      rw [List.headI_cons, List.headI_cons] at h1
      exact h1
    exact absurd h0 (by decide)
  · intro hall
    have hchunks : chunksOf 1900 docC1
        = docC1.take 1900
            :: chunksFuel (List.replicate 1900 'a').length 1900 (docC1.drop 1900) := by
      conv =>
        lhs
        rw [hd, chunksOf_cons]
      rw [← hd]
    have hmem : mkPartMsg 1 (chunksOf 1900 docC1).length (docC1.take 1900)
        ∈ partContents 1900 docC1 := by
      rw [partContents]
      apply List.mem_map.mpr
      refine ⟨(1, docC1.take 1900), ?_, rfl⟩
      rw [hchunks, enumFrom]
      exact List.mem_cons_self _ _
    have hlen := hall _ hmem
    rw [mkPartMsg_length] at hlen
    have hc0 : (docC1.take 1900).length = 1900 := by
      rw [List.length_take, docC1, List.length_replicate]
      omega
    rw [hc0] at hlen
    have hph := partHeader_length_ge 1 (chunksOf 1900 docC1).length
    omega

/-- C1 (amended): for any document and any limit `1 ≤ L < len(doc)`,
every chunk body fits within `L` before wrapping and the chunks
concatenate back to the document; the multi-part reassembly path
(collect, stable-sort by index, join the extracted bodies) applied to
the wrapped parts — in posting order or in reverse arrival order alike —
reconstructs not the document itself but its newline-padded form
`nlJoin`: each chunk surrounded by the `'\n'` on either side of it inside
its envelope. (The wrapped messages exceed `L` by the envelope overhead;
the code relies on the ambient 2000-character message cap instead.) -/
theorem C1_chunk_roundtrip_amended (doc : Content) (L : Nat) (h1 : 1 ≤ L)
    (_h2 : L < doc.length) :
    (∀ c ∈ chunksOf L doc, c.length ≤ L) ∧
      (chunksOf L doc).flatten = doc ∧
      combinedJson (collectParts (partMsgs L doc)) = nlJoin (chunksOf L doc) ∧
      combinedJson (collectParts ((partMsgs L doc).reverse)) = nlJoin (chunksOf L doc) := by
  refine ⟨chunksOf_length_le L doc, chunksOf_flatten L doc h1, ?_, ?_⟩
  · rw [collectParts_partMsgs, combinedJson_enum]
  · rw [collectParts_partMsgs_reverse, combinedJson_enum_reverse]

/-- C1 witness: the amended invariants at the document `"abcde"` with
limit 2 (chunks `ab`, `cd`, `e`). -/
theorem C1_chunk_roundtrip_amended_witness :
    1 ≤ 2 ∧ 2 < wdocC1.length ∧
      ((∀ c ∈ chunksOf 2 wdocC1, c.length ≤ 2) ∧
        (chunksOf 2 wdocC1).flatten = wdocC1 ∧
        combinedJson (collectParts (partMsgs 2 wdocC1)) = nlJoin (chunksOf 2 wdocC1) ∧
        combinedJson (collectParts ((partMsgs 2 wdocC1).reverse))
          = nlJoin (chunksOf 2 wdocC1)) :=
  ⟨by decide, by decide, C1_chunk_roundtrip_amended wdocC1 2 (by decide) (by decide)⟩

/-! ## C2 -/

/-- C2 counterexample: `c2hist` holds two complete 2-part save attempts,
A strictly newer than B. The claimed selection — join-then-decode of
exactly the most recent complete group, discarding all others — yields
the state of attempt A (one server in `warnings`; `phase2 c2groupA` is
precisely join-then-decode of that group). The code instead mixes the
parts of both attempts into one join, whose decode fails, so the load
returns the empty state. -/
theorem C2_counterexample :
    load_database emptyState (some c2hist) = emptyState ∧
      phase2 c2groupA = some c2stA ∧ c2stA.warnings.length = 1 := by
  refine ⟨rfl, rfl, rfl⟩

/-- C2 (amended): when no single-message snapshot decodes, the
reconstructor collects every part-tagged message in the scan — with no
grouping by save attempt, no completeness check and no use of the
declared totals or timestamps — stably sorts all the collected parts by
part index, concatenates all their extracted bodies, and decodes that;
the result is used only if it is a dict with a `"warnings"` key, and
otherwise the state is empty. Parts of older save attempts are not
discarded. -/
theorem C2_multipart_amended (msgs : List Msg) (h1 : phase1 msgs = none)
    (h2 : collectParts msgs ≠ []) :
    loadFromHistory msgs
      = (match jsonLoads (combinedJson (collectParts msgs)) with
         | some data => if isObjWithWarnings data then decodeFromData data else emptyState
         | none => emptyState) := by
  rw [loadFromHistory, h1, phase2, if_neg h2]
  cases hj : jsonLoads (combinedJson (collectParts msgs)) with
  | none => rfl
  | some data =>
    show (match (if isObjWithWarnings data = true then some (decodeFromData data) else none)
        with
        | some st => st
        | none => emptyState)
      = (if isObjWithWarnings data = true then decodeFromData data else emptyState)
    by_cases hw : isObjWithWarnings data = true
    · rw [hw]
      rfl
    · rw [Bool.not_eq_true] at hw
      rw [hw]
      rfl

/-- C2 witness: the amended characterization at the two-attempt history
(there, the combined decode fails and the result is empty). -/
theorem C2_multipart_amended_witness :
    phase1 c2hist = none ∧ collectParts c2hist ≠ [] ∧
      loadFromHistory c2hist
        = (match jsonLoads (combinedJson (collectParts c2hist)) with
           | some data => if isObjWithWarnings data then decodeFromData data else emptyState
           | none => emptyState) :=
  ⟨rfl, by decide, C2_multipart_amended c2hist rfl (by decide)⟩

/-! ## C3 -/

